import Mathlib

/-!
# Token index, multi-term search and playlist reordering of the music client

Shallow embedding of `src/src/music/music_player.go`.

Modelling conventions.

* A Go `string` is modelled as the list of its runes (`Str`).  All strings that reach
  this code are valid UTF-8 (JSON bodies and text typed in a widget); on valid UTF-8 the
  byte-wise `<` of Go coincides with the lexicographic order on code points, and
  `strings.HasPrefix`, `strings.Split` and `strings.ReplaceAll` with ASCII
  arguments act rune by rune.
* A Go `int` index is an `Int`; the tables are far shorter than `2^63`, so no
  arithmetic on positions overflows.
* A Go `map[string]V` is an association list with pairwise different keys
  (`GoMap`).  The order of the association list stands for the (unspecified) iteration
  order of the map; it is only observed by `createTokensTable`, which sorts by key
  afterwards.
* `strings.ToLower` maps every rune by `unicode.ToLower`; the rune map is a parameter
  (`lower`) of the functions that build the index, so that the general theorems hold for
  the Unicode tables, and the concrete scenarios, which are ASCII, take `Char.toLower`.
* Network calls are not executed: their outcomes are parameters of the functions that
  consume them.
-/

namespace MusicPlayer

/-! ## Strings -/

/-- A Go string, as its sequence of runes. -/
abbrev Str := List Char

/-- Go `strings.HasPrefix(s, p)`: `p` is an initial segment of `s`. -/
def HasPrefix : Str → Str → Bool
  | _, [] => true
  | [], _ :: _ => false
  | c :: s, d :: p => c == d && HasPrefix s p

/-- Go `a < b` on strings: lexicographic order, a proper initial segment being smaller. -/
def strLt : Str → Str → Bool
  | [], [] => false
  | [], _ :: _ => true
  | _ :: _, [] => false
  | c :: s, d :: t => decide (c < d) || (c == d && strLt s t)

/-- The order `a <= b` on strings, as a relation. -/
def StrLe (a b : Str) : Prop := strLt b a = false

instance StrLe.decidable : DecidableRel StrLe := fun a b =>
  inferInstanceAs (Decidable (strLt b a = false))

/-- Go `sort.Strings`: the ascending rearrangement of a list of strings.  Equal strings
are indistinguishable, so every sorting algorithm yields this same list. -/
def sortStrings (l : List Str) : List Str := l.insertionSort StrLe

/-- Go `strings.ToLower`: on valid UTF-8 every rune is mapped by `unicode.ToLower`.  The
rune map of the Unicode tables is the parameter `lower`; on ASCII it is `Char.toLower`,
which is what the concrete scenarios below instantiate it with. -/
def ToLower (lower : Char → Char) (s : Str) : Str := s.map lower

/-- Go `strings.ReplaceAll(s, "-", " ")`. -/
def ReplaceAllDash (s : Str) : Str := s.map (fun c => if c = '-' then ' ' else c)

/-- Go `strings.Split(s, " ")`: cut at every single space; `n` spaces give `n + 1`
pieces, empty pieces included. -/
def Split : Str → List Str
  | [] => [[]]
  | c :: cs =>
    if c = ' ' then [] :: Split cs
    else
      match Split cs with
      | [] => [[c]]
      | w :: ws => (c :: w) :: ws

/-! ## Go maps -/

/-- A Go `map[string]V`. -/
abbrev GoMap (V : Type) := List (Str × V)

/-- Read `m[k]`, if the key is present. -/
def GoMap.get? {V : Type} : GoMap V → Str → Option V
  | [], _ => none
  | (k, v) :: m, key => if k = key then some v else GoMap.get? m key

/-- The assignment `m[k] = v`. -/
def GoMap.set {V : Type} : GoMap V → Str → V → GoMap V
  | [], key, val => [(key, val)]
  | (k, v) :: m, key, val =>
    if k = key then (k, val) :: m else (k, v) :: GoMap.set m key val

/-! ## Data model -/

/-- Go `type Kind string`. -/
abbrev Kind := Str

def SongKind : Kind := "song".toList

def ArtistKind : Kind := "artist".toList

def AlbumKind : Kind := "album".toList

/-- Go `type Music struct`. -/
structure Music where
  Artist : Str
  Album : Str
  Title : Str
  Id : Str
  Path : Str
deriving DecidableEq, Repr

/-- The zero value of `Music`, what a map read gives for an absent key. -/
def Music.zero : Music := ⟨[], [], [], [], []⟩

/-- Go `type musicBy struct`. -/
structure musicBy where
  Name : Str
  Url : Str
deriving DecidableEq, Repr

/-- Go `type token struct`. -/
structure token where
  value : Str
  ids : List Str
deriving DecidableEq, Repr

/-- Go `type tokens []token`. -/
abbrev tokens := List token

/-! ## Prefix search -/

/-- Go `tokens.searchIn`: binary search, in the slice `subs` that starts at offset `pos` of
the table, for a token whose value starts with `text`; `-1` when there is none.  The
receiver `tok` is not read by the body. -/
def searchIn (subs : tokens) (text : Str) (pos : Int) : Int :=
  if h0 : subs.length = 0 then -1
  else
    let center := subs.length / 2
    let t := subs.get ⟨center, by omega⟩
    if HasPrefix t.value text then pos + center
    else if subs.length = 1 then -1
    else if strLt t.value text then searchIn (subs.drop center) text (center + pos)
    else searchIn (subs.take center) text pos
termination_by subs.length
decreasing_by
  all_goals simp_wf
  all_goals omega

/-- The first loop of `searchPosition`: `for i := pos + 1; i < len(tok) && HasPrefix(..); i++`.
The list argument is `tok[i:]`. -/
def scanUp (text : Str) : tokens → Int → List Int
  | [], _ => []
  | t :: rest, i => if HasPrefix t.value text then i :: scanUp text rest (i + 1) else []

/-- The second loop of `searchPosition`: `for i := pos - 1; i >= 0 && HasPrefix(..); i--`.
The numeric argument is `i + 1`. -/
def scanDown (tok : tokens) (text : Str) : Nat → List Int
  | 0 => []
  | i + 1 =>
    match tok[i]? with
    | some t => if HasPrefix t.value text then (i : Int) :: scanDown tok text i else []
    | none => []

/-- Go `tokens.searchPosition`. -/
def searchPosition (tok : tokens) (text : Str) : List Int :=
  let pos := searchIn tok text 0
  if pos ≠ -1 then
    [pos] ++ scanUp text (tok.drop (pos + 1).toNat) (pos + 1) ++ scanDown tok text pos.toNat
  else []

/-- A twin of `searchIn` by recursion on a bound `n` of the length of the slice, which
evaluates by computation; `searchIn_eval` shows that it is `searchIn`. -/
def searchInAux : Nat → tokens → Str → Int → Int
  | 0, _, _, _ => -1
  | n + 1, subs, text, pos =>
    if subs.length = 0 then -1
    else
      match subs[subs.length / 2]? with
      | none => -1
      | some t =>
        if HasPrefix t.value text then pos + (subs.length / 2 : Nat)
        else if subs.length = 1 then -1
        else if strLt t.value text then
          searchInAux n (subs.drop (subs.length / 2)) text ((subs.length / 2 : Nat) + pos)
        else searchInAux n (subs.take (subs.length / 2)) text pos

/-- Position `n` of the table holds a token whose value starts with `text`. -/
def matchAt (tok : tokens) (text : Str) (n : Nat) : Prop :=
  ∃ t, tok[n]? = some t ∧ HasPrefix t.value text = true

/-! ## Building the index -/

/-- The loop of `createDico` over the entries still to process, `m` being the map so far. -/
def createDicoLoop : List musicBy → GoMap Str → GoMap Str
  | [], m => m
  | value :: values, m => createDicoLoop values (GoMap.set m value.Url value.Name)

/-- Go `createDico`: identifier to display name, the last entry of an identifier winning. -/
def createDico (values : List musicBy) : GoMap Str := createDicoLoop values []

/-- The words of a display name, as `createTokensTable` cuts them:
`strings.Split(strings.ReplaceAll(strings.ToLower(name), "-", " "), " ")`. -/
def words (lower : Char → Char) (name : Str) : List Str :=
  Split (ReplaceAllDash (ToLower lower name))

/-- The inner loop of `createTokensTable`: append `url` to the bucket of every word. -/
def addWords (url : Str) : List Str → GoMap (List Str) → GoMap (List Str)
  | [], m => m
  | sub :: subs, m =>
    let list := match GoMap.get? m sub with
      | some l => l
      | none => []
    addWords url subs (GoMap.set m sub (list ++ [url]))

/-- The outer loop of `createTokensTable`. -/
def fillBuckets (lower : Char → Char) : List musicBy → GoMap (List Str) → GoMap (List Str)
  | [], m => m
  | value :: values, m =>
    fillBuckets lower values (addWords value.Url (words lower value.Name) m)

/-- The order `x.value <= y.value` on tokens. -/
def tokenLe (x y : token) : Prop := StrLe x.value y.value

instance tokenLe.decidable : DecidableRel tokenLe := fun x y =>
  inferInstanceAs (Decidable (StrLe x.value y.value))

/-- Go `createTokensTable`: one token per word, sorted by `sort.Slice` on the value.  The
keys of the map are pairwise different, so the sorted slice does not depend on the
iteration order of the map nor on the sorting algorithm. -/
def createTokensTable (lower : Char → Char) (values : List musicBy) : tokens :=
  let m := fillBuckets lower values []
  let asList := m.map (fun kv => token.mk kv.1 kv.2)
  asList.insertionSort tokenLe

/-- The keys of a Go map. -/
def GoMap.keys {V : Type} (m : GoMap V) : List Str := m.map Prod.fst

/-- The bucket of a word in the map of `createTokensTable`, empty for an absent word. -/
def bucketOf (m : GoMap (List Str)) (w : Str) : List Str :=
  match GoMap.get? m w with
  | some l => l
  | none => []

/-- The identifiers that a listing contributes to the word `w`: the url of each entry, once
per occurrence of `w` among the words of its name, in listing order. -/
def contributions (lower : Char → Char) (values : List musicBy) (w : Str) : List Str :=
  values.flatMap (fun e => List.replicate ((words lower e.Name).count w) e.Url)

/-! ## Intersection -/

/-- The inner `for` of `intersect` for one `a[i]`; the list is `b[j:]`.  Returns whether
`a[i]` was appended to the results, and `b[j:]` for the `j` reached. -/
def intersectInner (x : Str) : List Str → Bool × List Str
  | [] => (false, [])
  | y :: b =>
    if strLt x y then (false, y :: b)
    else if strLt y x then intersectInner x b
    else (true, b)

/-- The outer `for` of `intersect`; the lists are `a[i:]` and `b[j:]`, the value is what is
appended to `results` from there on. -/
def intersectOuter : List Str → List Str → List Str
  | [], _ => []
  | x :: a, b =>
    let r := intersectInner x b
    let rest := if r.2.length = 0 then [] else intersectOuter a r.2
    if r.1 then x :: rest else rest

/-- Go `intersect`. -/
def intersect (a b : List Str) : List Str :=
  if a.length = 0 ∨ b.length = 0 then []
  else intersectOuter (sortStrings a) (sortStrings b)

/-! ## Multi-term search -/

/-- Read `tks[pos].ids` (the position is always in range where this is called). -/
def idsAt (tks : tokens) (pos : Int) : List Str :=
  match tks[pos.toNat]? with
  | some t => t.ids
  | none => []

/-- The loop over `positions` that appends `tks[pos].ids...` to `subResults`. -/
def collectIds (tks : tokens) : List Int → List Str
  | [] => []
  | pos :: positions => idsAt tks pos ++ collectIds tks positions

/-- The read `dico[id]`, the empty string for an absent key. -/
def dicoName (dico : GoMap Str) (id : Str) : Str :=
  match GoMap.get? dico id with
  | some name => name
  | none => []

/-- The loop of `searchSome` over the terms still to process, `idx` being the index of the
first of them and `results` the current value of the variable; after the last term the
identifiers are turned into entities. -/
def searchLoop (tks : tokens) (dico : GoMap Str) : List Str → Nat → List Str → List Music
  | [], _, results =>
    results.map (fun id => Music.mk (dicoName dico id) (dicoName dico id) [] id [])
  | t :: terms, idx, results =>
    let positions := searchPosition tks t
    if positions.length = 0 then []
    else
      let subResults := collectIds tks positions
      if idx = 0 then searchLoop tks dico terms (idx + 1) subResults
      else
        let r := intersect results subResults
        if r.length = 0 then [] else searchLoop tks dico terms (idx + 1) r

/-- Go `MusicServerWrapper.searchSome`. -/
def searchSome (text : Str) (tks : tokens) (dico : GoMap Str) : List Music :=
  searchLoop tks dico (Split text) 0 []

/-- Identifier `x` is listed by a token of the table whose value starts with the term `t`:
`x` is in the union of the `ids` of the tokens that match `t`. -/
def termHas (tks : tokens) (t : Str) (x : Str) : Prop :=
  ∃ tok ∈ tks, HasPrefix tok.value t = true ∧ x ∈ tok.ids

/-- The listing of the concrete scenario of the specification. -/
def scenario : List musicBy :=
  [⟨"Jean Michel Jarre".toList, "a1".toList⟩, ⟨"Jean Gold".toList, "a2".toList⟩,
    ⟨"Golden Oak".toList, "a3".toList⟩]

/-! ## Query routing -/

/-- Go `type MusicServerWrapper struct`, without the server address. -/
structure MusicServerWrapper where
  artistTokens : tokens
  albumTokens : tokens
  artistDico : GoMap Str
  albumDico : GoMap Str

/-- Go `SearchArtists`. -/
def MusicServerWrapper.SearchArtists (nsw : MusicServerWrapper) (text : Str) : List Music :=
  searchSome text nsw.artistTokens nsw.artistDico

/-- Go `SearchAlbums`. -/
def MusicServerWrapper.SearchAlbums (nsw : MusicServerWrapper) (text : Str) : List Music :=
  searchSome text nsw.albumTokens nsw.albumDico

/-- Go `HybridSearch`.  `Search` is the remote free-text song search, a function of the term
it is called with. -/
def MusicServerWrapper.HybridSearch (nsw : MusicServerWrapper) (Search : Str → List Music)
    (term : Str) : List Music × Kind :=
  if HasPrefix term ":".toList then
    if HasPrefix term ":artist ".toList then (nsw.SearchArtists (term.drop 8), ArtistKind)
    else if HasPrefix term ":album ".toList then (nsw.SearchAlbums (term.drop 7), AlbumKind)
    else if HasPrefix term ":album ".toList then ([], AlbumKind)
    else (Search term, SongKind)
  else (Search term, SongKind)

/-! ## Playlist -/

/-- Go `fmt.Sprintf("%d", id)`. -/
def Sprintf_d (id : Int) : Str := (Int.repr id).toList

/-- The loop of `getMusicsAsMap` over the tracks still to process, `m` being the map so
far. -/
def getMusicsAsMapLoop : List Music → GoMap Music → GoMap Music
  | [], m => m
  | music :: musics, m => getMusicsAsMapLoop musics (GoMap.set m music.Id music)

/-- Go `getMusicsAsMap`: a later track of an `Id` replaces an earlier one. -/
def getMusicsAsMap (musics : List Music) : GoMap Music := getMusicsAsMapLoop musics []

/-- The read `musicsById[key]`, the zero track for an absent key. -/
def musicAt (m : GoMap Music) (key : Str) : Music :=
  match GoMap.get? m key with
  | some music => music
  | none => Music.zero

/-- A Go result pair `(value, error)`; `none` is the `nil` error. -/
abbrev Result (α : Type) := α × Option Str

/-- Go `MusicWrapper.GetPlaylist`.  `state` is what `mw.player.GetState()` returned and
`GetMusics ids` what `mw.server.GetMusics(ids)` returns. -/
def GetPlaylist (state : Result (List Int)) (GetMusics : List Int → Result (List Music)) :
    Result (List Music) :=
  match state with
  | (ids, none) =>
    match GetMusics ids with
    | (_, some err) => ([], some err)
    | (musics, none) =>
      let musicsById := getMusicsAsMap musics
      (ids.map (fun id => musicAt musicsById (Sprintf_d id)), none)
  | (_, some err) => ([], some err)

/-- The index built from the listing of the scenario (its names are ASCII). -/
def scenarioTable : tokens := createTokensTable Char.toLower scenario

/-- The name dictionary built from the listing of the scenario. -/
def scenarioDico : GoMap Str := createDico scenario

/-- A listing of albums, with other names and identifiers than the artists of the
scenario. -/
def albumScenario : List musicBy :=
  [⟨"Gold Rush".toList, "b1".toList⟩, ⟨"Oxygene".toList, "b2".toList⟩]

/-- A server wrapper with the artists of the scenario and the albums of `albumScenario`. -/
def scenarioServer : MusicServerWrapper :=
  ⟨scenarioTable, createTokensTable Char.toLower albumScenario, scenarioDico,
    createDico albumScenario⟩

/-- A stand-in for the remote song search: one song whose title is the term received. -/
def echoSearch (term : Str) : List Music := [⟨[], [], term, "s1".toList, []⟩]

/-- A listing whose single name repeats a word. -/
def duranListing : List musicBy := [⟨"Duran Duran".toList, "d1".toList⟩]

/-- A listing whose single name has two words with a common initial segment. -/
def goldListing : List musicBy := [⟨"Gold Golden".toList, "g1".toList⟩]

/-- Three tracks with the identifiers 7, 3 and 9. -/
def track7 : Music := ⟨"x".toList, "y".toList, "seven".toList, "7".toList, []⟩

def track3 : Music := ⟨"x".toList, "y".toList, "three".toList, "3".toList, []⟩

def track9 : Music := ⟨"z".toList, "y".toList, "nine".toList, "9".toList, []⟩

/-! ## Multiplicities -/

/-- The value of the token at a position of the table (empty out of range). -/
def valueAt (tks : tokens) (pos : Int) : Str :=
  match tks[pos.toNat]? with
  | some t => t.value
  | none => []

/-- The number of word occurrences of the name of `e` that start with the term `t`. -/
def occurrences (lower : Char → Char) (e : musicBy) (t : Str) : Nat :=
  ((words lower e.Name).filter (fun w => HasPrefix w t)).length

/-- A listing in which no term of the query "a b" is clean for every name, while every
name has a clean term. -/
def crossListing : List musicBy :=
  [⟨"aa ab ba".toList, "x".toList⟩, ⟨"aa ba bb".toList, "y".toList⟩]

/-! ## Remote calls -/

/-- What `http.Get` or `http.Post` hands back: a non-nil error and no response (transport
failure), or a response with its status code and the body as `io.ReadAll` returns it, with
the error of that read. -/
inductive HttpReply where
  | failure (err : Str)
  | response (status : Nat) (body : Str) (readErr : Option Str)
deriving DecidableEq, Repr

/-- Go `MusicPlayerWrapper.GetState`, on the reply to `GET /playlist/state`.
`unmarshalIds data` is the value of `value.Ids` after `json.Unmarshal(data, &value)` and the
error of that call.  For a status other than 200 the `else` branch returns `nil, err` with
the nil error of `http.Get`. -/
def GetState (unmarshalIds : Str → Result (List Int)) (reply : HttpReply) :
    Result (List Int) :=
  match reply with
  | HttpReply.response status body _ =>
    if status = 200 then
      match unmarshalIds body with
      | (_, some err) => ([], some err)
      | (ids, none) => (ids, none)
    else ([], none)
  | HttpReply.failure err => ([], some err)

/-- Go `MusicServerWrapper.GetMusics`, on the reply to `GET /musicsInfo?ids=[...]`.
`unmarshalMusics data` is the value of `musics` after `json.Unmarshal(data, &musics)` and
the error of that call.  The status code is not read. -/
def GetMusics (unmarshalMusics : Str → Result (List Music)) (reply : HttpReply) :
    Result (List Music) :=
  match reply with
  | HttpReply.failure err => ([], some err)
  | HttpReply.response _ body _ => unmarshalMusics body

/-- Go `MusicServerWrapper.FindPath`, on the reply to `GET /pathOfMusic?id=...`.  For a
status other than 200 the last line returns `"", err` with the nil error of `http.Get`. -/
def FindPath (reply : HttpReply) : Result Str :=
  match reply with
  | HttpReply.response status body readErr =>
    if status = 200 then (body, readErr) else ([], none)
  | HttpReply.failure err => ([], some err)

/-- Go `MusicPlayerWrapper.Add`, on the reply to `POST /playlist/add`: the error of
`http.Post`. -/
def MusicPlayerWrapper.Add (reply : HttpReply) : Option Str :=
  match reply with
  | HttpReply.failure err => some err
  | HttpReply.response _ _ _ => none

/-- Go `MusicWrapper.Add`.  `pathOfMusic id` is the reply of the catalog to the path lookup
of `id`, `playlistAdd id path` the reply of the player to the add call for `id` and `path`.
The value is the error returned and the list of the add calls issued, each as its pair of
`id` and `path`. -/
def MusicWrapper.Add (pathOfMusic : Str → HttpReply) (playlistAdd : Str → Str → HttpReply)
    (m : Music) : Option Str × List (Str × Str) :=
  match FindPath (pathOfMusic m.Id) with
  | (path, none) => (MusicPlayerWrapper.Add (playlistAdd m.Id path), [(m.Id, path)])
  | (_, some err) => (some err, [])

/-- A JSON decoder restricted to the body `[]`, which decodes to the empty list; any other
body is reported as malformed. -/
def unmarshalEmptyArray {α : Type} (data : Str) : Result (List α) :=
  if data = "[]".toList then ([], none) else ([], some "invalid character".toList)

/-! ## Binary search with a bound on the number of calls -/

/-- The function `searchIn` with a bound on the depth of the calls: `none` when `fuel` nested
calls do not reach a `return`. -/
def searchInFuel : Nat → tokens → Str → Int → Option Int
  | 0, _, _, _ => none
  | fuel + 1, subs, text, pos =>
    if subs.length = 0 then some (-1)
    else
      match subs[subs.length / 2]? with
      | none => none
      | some t =>
        if HasPrefix t.value text then some (pos + (subs.length / 2 : Nat))
        else if subs.length = 1 then some (-1)
        else if strLt t.value text then
          searchInFuel fuel (subs.drop (subs.length / 2)) text ((subs.length / 2 : Nat) + pos)
        else searchInFuel fuel (subs.take (subs.length / 2)) text pos

/-! ## Words of the specification -/

/-- A whitespace rune, as Go `unicode.IsSpace` has it: tab, line feed, vertical tab, form
feed, carriage return, space, U+0085, U+00A0 and the other runes of the Unicode property
White_Space. -/
def isSpace (c : Char) : Bool :=
  c.toNat = 32 || (9 ≤ c.toNat && c.toNat ≤ 13) || c.toNat = 0x85 || c.toNat = 0xA0 ||
    c.toNat = 0x1680 || (0x2000 ≤ c.toNat && c.toNat ≤ 0x200A) || c.toNat = 0x2028 ||
    c.toNat = 0x2029 || c.toNat = 0x202F || c.toNat = 0x205F || c.toNat = 0x3000

/-- Cut a string at every whitespace rune, empty pieces included. -/
def splitWhitespace : Str → List Str
  | [] => [[]]
  | c :: cs =>
    if isSpace c then [] :: splitWhitespace cs
    else
      match splitWhitespace cs with
      | [] => [[c]]
      | w :: ws => (c :: w) :: ws

/-- The whitespace-separated words of a string, as the specification words the
normalization ("split on whitespace into words"): the maximal runs of runes that are not
whitespace.  This definition follows the specification; `words` follows the source. -/
def specWords (s : Str) : List Str := (splitWhitespace s).filter (fun w => !w.isEmpty)

/-- A listing whose single name has two consecutive spaces. -/
def doubleSpaceListing : List musicBy := [⟨"Jean  Gold".toList, "a2".toList⟩]

/-- A listing whose single name has a tab between its two words. -/
def tabListing : List musicBy := [⟨['A', '\t', 'B'], "t1".toList⟩]

/-- A listing whose single name is empty. -/
def emptyNameListing : List musicBy := [⟨[], "e1".toList⟩]

/-- The rune U+1D400, MATHEMATICAL BOLD CAPITAL A: an uppercase letter of Unicode that has no
lowercase form, so that `unicode.ToLower` returns it unchanged, as `Char.toLower` does. -/
def boldCapitalA : Char := Char.ofNat 0x1D400

/-- A listing whose single name is the rune U+1D400. -/
def boldCapitalListing : List musicBy := [⟨[boldCapitalA], "m1".toList⟩]

/-! ## The order on strings -/

theorem HasPrefix_nil (s : Str) : HasPrefix s [] = true := by
  cases s <;> rfl

theorem HasPrefix_cons_cons (c d : Char) (s p : Str) :
    HasPrefix (c :: s) (d :: p) = true ↔ c = d ∧ HasPrefix s p = true := by
  simp [HasPrefix]

theorem HasPrefix_iff_append : ∀ (s p : Str), HasPrefix s p = true ↔ ∃ x, s = p ++ x
  | s, [] => by simp [HasPrefix_nil]
  | [], d :: p => by simp [HasPrefix]
  | c :: s, d :: p => by
    rw [HasPrefix_cons_cons, HasPrefix_iff_append s p]
    constructor
    · rintro ⟨rfl, x, rfl⟩
      exact ⟨x, rfl⟩
    · rintro ⟨x, hx⟩
      simp only [List.cons_append, List.cons.injEq] at hx
      exact ⟨hx.1, x, hx.2⟩

theorem HasPrefix_refl (s : Str) : HasPrefix s s = true :=
  (HasPrefix_iff_append s s).2 ⟨[], by simp⟩

theorem strLt_cons_cons (c d : Char) (s t : Str) :
    strLt (c :: s) (d :: t) = true ↔ c < d ∨ (c = d ∧ strLt s t = true) := by
  simp [strLt]

theorem strLt_irrefl : ∀ a : Str, strLt a a = false
  | [] => rfl
  | c :: s => by
    have ih := strLt_irrefl s
    simp [strLt, ih]

theorem strLt_trans : ∀ a b c : Str, strLt a b = true → strLt b c = true → strLt a c = true
  | [], [], _, h, _ => by simp [strLt] at h
  | [], _ :: _, [], _, h => by simp [strLt] at h
  | [], _ :: _, _ :: _, _, _ => by simp [strLt]
  | _ :: _, [], _, h, _ => by simp [strLt] at h
  | _ :: _, _ :: _, [], _, h => by simp [strLt] at h
  | x :: a, y :: b, z :: c, h1, h2 => by
    rw [strLt_cons_cons] at h1 h2 ⊢
    rcases h1 with h1 | ⟨rfl, h1⟩
    · rcases h2 with h2 | ⟨rfl, _⟩
      · exact Or.inl (lt_trans h1 h2)
      · exact Or.inl h1
    · rcases h2 with h2 | ⟨rfl, h2⟩
      · exact Or.inl h2
      · exact Or.inr ⟨rfl, strLt_trans a b c h1 h2⟩

theorem strLt_asymm : ∀ a b : Str, strLt a b = true → strLt b a = false
  | [], [], h => by simp [strLt] at h
  | [], _ :: _, _ => by simp [strLt]
  | _ :: _, [], h => by simp [strLt] at h
  | x :: a, y :: b, h => by
    rw [strLt_cons_cons] at h
    rw [Bool.eq_false_iff, Ne, strLt_cons_cons]
    rintro (h2 | ⟨rfl, h2⟩)
    · rcases h with h | ⟨rfl, _⟩
      · exact lt_asymm h h2
      · exact lt_irrefl _ h2
    · rcases h with h | ⟨_, h⟩
      · exact lt_irrefl _ h
      · have := strLt_asymm a b h
        simp [h2] at this

theorem strLt_connex : ∀ a b : Str, strLt a b = false → strLt b a = false → a = b
  | [], [], _, _ => rfl
  | [], _ :: _, h, _ => by simp [strLt] at h
  | _ :: _, [], _, h => by simp [strLt] at h
  | x :: a, y :: b, h1, h2 => by
    rw [Bool.eq_false_iff, Ne, strLt_cons_cons] at h1 h2
    push_neg at h1 h2
    have hxy : x = y := le_antisymm h2.1 h1.1
    subst hxy
    have e1 : strLt a b = false := by simpa using h1.2 rfl
    have e2 : strLt b a = false := by simpa using h2.2 rfl
    rw [strLt_connex a b e1 e2]

theorem StrLe_refl (a : Str) : StrLe a a := strLt_irrefl a

theorem StrLe_total (a b : Str) : StrLe a b ∨ StrLe b a := by
  unfold StrLe
  cases h : strLt b a
  · exact Or.inl rfl
  · exact Or.inr (strLt_asymm b a h)

theorem StrLe_trans (a b c : Str) (h1 : StrLe a b) (h2 : StrLe b c) : StrLe a c := by
  unfold StrLe at *
  cases h : strLt c a
  · rfl
  · exfalso
    -- c < a, a <= b, b <= c
    cases hb : strLt a b
    · have hab : a = b := strLt_connex a b hb h1
      subst hab
      rw [h] at h2
      exact Bool.noConfusion h2
    · have := strLt_trans c a b h hb
      rw [this] at h2
      exact Bool.noConfusion h2

theorem StrLe_antisymm (a b : Str) (h1 : StrLe a b) (h2 : StrLe b a) : a = b :=
  strLt_connex a b h2 h1

theorem strLt_of_lt_of_le (a b c : Str) (h1 : strLt a b = true) (h2 : StrLe b c) :
    strLt a c = true := by
  cases h : strLt b c
  · have hbc : b = c := strLt_connex b c h h2
    rw [← hbc]
    exact h1
  · exact strLt_trans a b c h1 h

theorem strLt_of_le_of_lt (a b c : Str) (h1 : StrLe a b) (h2 : strLt b c = true) :
    strLt a c = true := by
  cases h : strLt a b
  · have hab : a = b := strLt_connex a b h h1
    rw [hab]
    exact h2
  · exact strLt_trans a b c h h2

/-- A string below `p` is below every string that starts with `p`. -/
theorem strLt_of_lt_text : ∀ (t p s : Str), strLt t p = true → HasPrefix s p = true →
    strLt t s = true
  | [], [], _, h, _ => by simp [strLt] at h
  | _ :: _, [], _, h, _ => by simp [strLt] at h
  | _, _ :: _, [], _, h => by simp [HasPrefix] at h
  | [], _ :: _, _ :: _, _, _ => by simp [strLt]
  | c :: t, d :: p, e :: s, h1, h2 => by
    rw [HasPrefix_cons_cons] at h2
    obtain ⟨rfl, h2⟩ := h2
    rw [strLt_cons_cons] at h1 ⊢
    rcases h1 with h1 | ⟨rfl, h1⟩
    · exact Or.inl h1
    · exact Or.inr ⟨rfl, strLt_of_lt_text t p s h1 h2⟩

/-- A string that neither starts with `p` nor is below `p` is above every string that
starts with `p`. -/
theorem strLt_of_not_lt_text : ∀ (t p s : Str), HasPrefix t p = false → strLt t p = false →
    HasPrefix s p = true → strLt s t = true
  | t, [], _, h, _, _ => by simp [HasPrefix_nil] at h
  | _, _ :: _, [], _, _, h => by simp [HasPrefix] at h
  | [], _ :: _, _ :: _, _, h, _ => by simp [strLt] at h
  | c :: t, d :: p, e :: s, h0, h1, h2 => by
    rw [HasPrefix_cons_cons] at h2
    obtain ⟨rfl, h2⟩ := h2
    rw [Bool.eq_false_iff, Ne, HasPrefix_cons_cons] at h0
    rw [Bool.eq_false_iff, Ne, strLt_cons_cons] at h1
    rw [strLt_cons_cons]
    push_neg at h0 h1
    by_cases hce : c = e
    · subst hce
      have e0 : HasPrefix t p = false := by simpa using h0 rfl
      have e1 : strLt t p = false := by simpa using h1.2 rfl
      exact Or.inr ⟨rfl, strLt_of_not_lt_text t p s e0 e1 h2⟩
    · exact Or.inl (lt_of_le_of_ne h1.1 (Ne.symm hce))

/-- Strings that start with `p` are contiguous in the order. -/
theorem HasPrefix_between (a b c p : Str) (ha : HasPrefix a p = true)
    (hc : HasPrefix c p = true) (hab : StrLe a b) (hbc : StrLe b c) :
    HasPrefix b p = true := by
  cases hb : HasPrefix b p
  · exfalso
    cases hlt : strLt b p
    · have := strLt_of_not_lt_text b p c hb hlt hc
      unfold StrLe at hbc
      rw [this] at hbc
      exact Bool.noConfusion hbc
    · have := strLt_of_lt_text b p a hlt ha
      unfold StrLe at hab
      rw [this] at hab
      exact Bool.noConfusion hab
  · rfl

/-! ## Binary search -/

theorem searchIn_nil (text : Str) (pos : Int) : searchIn [] text pos = -1 := by
  rw [searchIn]; simp

theorem searchIn_step (subs : tokens) (text : Str) (pos : Int) (t : token)
    (ht : subs[subs.length / 2]? = some t) :
    searchIn subs text pos =
      if HasPrefix t.value text then pos + (subs.length / 2 : Nat)
      else if subs.length = 1 then -1
      else if strLt t.value text then
        searchIn (subs.drop (subs.length / 2)) text ((subs.length / 2 : Nat) + pos)
      else searchIn (subs.take (subs.length / 2)) text pos := by
  have hlt : subs.length / 2 < subs.length := by
    by_contra hge
    rw [List.getElem?_eq_none (not_lt.1 hge)] at ht
    exact Option.noConfusion ht
  have h0 : subs.length ≠ 0 := by omega
  have hget : subs.get ⟨subs.length / 2, hlt⟩ = t := by
    rw [List.getElem?_eq_getElem hlt] at ht
    simpa using ht
  rw [searchIn]
  simp only [h0, ↓reduceDIte, hget]

theorem searchIn_eq_aux (n : Nat) : ∀ (subs : tokens) (text : Str) (pos : Int),
    subs.length ≤ n → searchIn subs text pos = searchInAux n subs text pos := by
  induction n with
  | zero =>
    intro subs text pos h
    have h0 : subs = [] := List.length_eq_zero.1 (by omega)
    subst h0
    rw [searchIn_nil]; rfl
  | succ n ih =>
    intro subs text pos h
    by_cases h0 : subs.length = 0
    · have h0 : subs = [] := List.length_eq_zero.1 h0
      subst h0
      rw [searchIn_nil]; rfl
    · have hc : subs.length / 2 < subs.length := by omega
      rw [searchIn_step subs text pos _ (List.getElem?_eq_getElem hc), searchInAux]
      simp only [h0, ↓reduceIte, List.getElem?_eq_getElem hc]
      split
      · rfl
      · split
        · rfl
        · rw [ih (subs.drop (subs.length / 2)) text _ (by simp; omega),
            ih (subs.take (subs.length / 2)) text _ (by simp; omega)]

/-- The computable twin is `searchIn`. -/
theorem searchIn_eval (subs : tokens) (text : Str) (pos : Int) :
    searchIn subs text pos = searchInAux subs.length subs text pos :=
  searchIn_eq_aux _ _ _ _ (le_refl _)

/-- Whatever the table, `searchIn` answers `-1` or the offset of a matching position. -/
theorem searchIn_sound (n : Nat) : ∀ (subs : tokens) (text : Str) (pos : Int),
    subs.length ≤ n →
    searchIn subs text pos = -1 ∨
      ∃ k : Nat, k < subs.length ∧ searchIn subs text pos = pos + k ∧
        matchAt subs text k := by
  induction n with
  | zero =>
    intro subs text pos h
    have h0 : subs = [] := List.length_eq_zero.1 (by omega)
    subst h0
    exact Or.inl (searchIn_nil _ _)
  | succ n ih =>
    intro subs text pos h
    by_cases h0 : subs.length = 0
    · have h0 : subs = [] := List.length_eq_zero.1 h0
      subst h0
      exact Or.inl (searchIn_nil _ _)
    · have hc : subs.length / 2 < subs.length := by omega
      rw [searchIn_step subs text pos _ (List.getElem?_eq_getElem hc)]
      split
      · rename_i hp
        exact Or.inr ⟨subs.length / 2, hc, rfl, _, List.getElem?_eq_getElem hc, hp⟩
      · split
        · exact Or.inl rfl
        · split
          · rcases ih (subs.drop (subs.length / 2)) text ((subs.length / 2 : Nat) + pos)
              (by simp; omega) with h1 | ⟨k, hk, h1, t, ht, hp⟩
            · exact Or.inl h1
            · refine Or.inr ⟨subs.length / 2 + k, ?_, ?_, t, ?_, hp⟩
              · simp at hk; omega
              · rw [h1]; push_cast; ring
              · rw [List.getElem?_drop] at ht; exact ht
          · rcases ih (subs.take (subs.length / 2)) text pos
              (by simp; omega) with h1 | ⟨k, hk, h1, t, ht, hp⟩
            · exact Or.inl h1
            · refine Or.inr ⟨k, ?_, h1, t, ?_, hp⟩
              · simp at hk; omega
              · simp at hk
                rw [List.getElem?_take_of_lt hk.1] at ht; exact ht

/-- On a sorted table, the answer `-1` means that no token starts with `text`. -/
theorem searchIn_complete (n : Nat) : ∀ (subs : tokens) (text : Str) (pos : Int),
    subs.length ≤ n → subs.Sorted tokenLe → 0 ≤ pos → searchIn subs text pos = -1 →
    ∀ u ∈ subs, HasPrefix u.value text = false := by
  induction n with
  | zero =>
    intro subs text pos h _ _ _ u hu
    have h0 : subs = [] := List.length_eq_zero.1 (by omega)
    subst h0
    simp at hu
  | succ n ih =>
    intro subs text pos h hs hpos hres u hu
    by_cases h0 : subs.length = 0
    · have h0 : subs = [] := List.length_eq_zero.1 h0
      subst h0
      simp at hu
    · have hc : subs.length / 2 < subs.length := by omega
      have hdrop : subs.drop (subs.length / 2)
          = subs[subs.length / 2] :: subs.drop (subs.length / 2 + 1) :=
        List.drop_eq_getElem_cons hc
      have hsplit : subs.take (subs.length / 2) ++ subs.drop (subs.length / 2) = subs :=
        List.take_append_drop _ _
      have hpw : (subs.take (subs.length / 2) ++ subs.drop (subs.length / 2)).Pairwise tokenLe := by
        rw [hsplit]; exact hs
      rw [List.pairwise_append] at hpw
      obtain ⟨hst, hsd, hcross⟩ := hpw
      have hmem : u ∈ subs.take (subs.length / 2) ∨ u ∈ subs.drop (subs.length / 2) := by
        rw [← hsplit] at hu
        exact List.mem_append.1 hu
      have hcmem : subs[subs.length / 2] ∈ subs.drop (subs.length / 2) := by
        rw [hdrop]; exact List.mem_cons_self _ _
      rw [searchIn_step subs text pos _ (List.getElem?_eq_getElem hc)] at hres
      split at hres
      · exfalso; omega
      · rename_i hnp
        have hnp : HasPrefix subs[subs.length / 2].value text = false := by simpa using hnp
        split at hres
        · rename_i h1
          -- a single token, which does not match
          have hu0 : u = subs[subs.length / 2] := by
            obtain ⟨i, hi, rfl⟩ := List.mem_iff_getElem.1 hu
            congr 1
            omega
          rw [hu0]; exact hnp
        · split at hres
          · rename_i hlt
            rcases hmem with hm | hm
            · cases hup : HasPrefix u.value text
              · rfl
              · exfalso
                have h1 := strLt_of_lt_text _ _ _ hlt hup
                have h2 : tokenLe u subs[subs.length / 2] := hcross u hm _ hcmem
                unfold tokenLe StrLe at h2
                rw [h1] at h2
                exact Bool.noConfusion h2
            · exact ih (subs.drop (subs.length / 2)) text _ (by simp; omega) hsd
                (by omega) hres u hm
          · rename_i hlt
            have hlt : strLt subs[subs.length / 2].value text = false := by simpa using hlt
            rcases hmem with hm | hm
            · exact ih (subs.take (subs.length / 2)) text _ (by simp; omega) hst
                hpos hres u hm
            · cases hup : HasPrefix u.value text
              · rfl
              · exfalso
                have h1 := strLt_of_not_lt_text _ _ _ hnp hlt hup
                have h2 : tokenLe subs[subs.length / 2] u := by
                  rw [hdrop] at hm hsd
                  rcases List.mem_cons.1 hm with rfl | hm
                  · exact StrLe_refl _
                  · exact List.rel_of_pairwise_cons hsd hm
                unfold tokenLe StrLe at h2
                rw [h1] at h2
                exact Bool.noConfusion h2

/-! ## The two scans of `searchPosition` -/

theorem matchAt_lt_length {tok : tokens} {text : Str} {n : Nat} (h : matchAt tok text n) :
    n < tok.length := by
  obtain ⟨t, ht, _⟩ := h
  by_contra hge
  rw [List.getElem?_eq_none (not_lt.1 hge)] at ht
  exact Option.noConfusion ht

theorem matchAt_drop (tok : tokens) (text : Str) (k n : Nat) :
    matchAt (tok.drop k) text n ↔ matchAt tok text (k + n) := by
  unfold matchAt
  rw [List.getElem?_drop]

theorem matchAt_cons_succ (t : token) (tok : tokens) (text : Str) (n : Nat) :
    matchAt (t :: tok) text (n + 1) ↔ matchAt tok text n := by
  unfold matchAt
  rw [List.getElem?_cons_succ]

theorem matchAt_cons_zero (t : token) (tok : tokens) (text : Str) :
    matchAt (t :: tok) text 0 ↔ HasPrefix t.value text = true := by
  unfold matchAt
  simp

/-- On a sorted table the matching positions are contiguous. -/
theorem matchAt_between (tok : tokens) (text : Str) (hs : tok.Sorted tokenLe) (a b c : Nat)
    (ha : matchAt tok text a) (hc : matchAt tok text c) (hab : a ≤ b) (hbc : b ≤ c) :
    matchAt tok text b := by
  have hcl := matchAt_lt_length hc
  have hal := matchAt_lt_length ha
  have hbl : b < tok.length := by omega
  obtain ⟨ta, hta, hpa⟩ := ha
  obtain ⟨tc, htc, hpc⟩ := hc
  rw [List.getElem?_eq_getElem hal] at hta
  rw [List.getElem?_eq_getElem hcl] at htc
  cases hta
  cases htc
  refine ⟨tok[b], List.getElem?_eq_getElem hbl, ?_⟩
  have hpw := List.pairwise_iff_getElem.1 hs
  have h1 : StrLe tok[a].value tok[b].value := by
    rcases Nat.lt_or_ge a b with h | h
    · exact hpw a b hal hbl h
    · have : a = b := by omega
      subst this
      exact StrLe_refl _
  have h2 : StrLe tok[b].value tok[c].value := by
    rcases Nat.lt_or_ge b c with h | h
    · exact hpw b c hbl hcl h
    · have : b = c := by omega
      subst this
      exact StrLe_refl _
  exact HasPrefix_between _ _ _ _ hpa hpc h1 h2

theorem scanUp_mem (text : Str) : ∀ (l : tokens) (i j : Int),
    j ∈ scanUp text l i ↔ ∃ n : Nat, j = i + n ∧ ∀ m, m ≤ n → matchAt l text m
  | [], i, j => by
    simp only [scanUp, List.not_mem_nil, false_iff]
    rintro ⟨n, _, h⟩
    have := matchAt_lt_length (h 0 (Nat.zero_le _))
    simp at this
  | t :: rest, i, j => by
    by_cases hp : HasPrefix t.value text = true
    · simp only [scanUp, hp, ↓reduceIte, List.mem_cons, scanUp_mem text rest (i + 1) j]
      constructor
      · rintro (rfl | ⟨n, rfl, h⟩)
        · refine ⟨0, by simp, ?_⟩
          intro m hm
          have : m = 0 := by omega
          subst this
          exact (matchAt_cons_zero _ _ _).2 hp
        · refine ⟨n + 1, by push_cast; ring, ?_⟩
          intro m hm
          cases m with
          | zero => exact (matchAt_cons_zero _ _ _).2 hp
          | succ m => exact (matchAt_cons_succ _ _ _ _).2 (h m (by omega))
      · rintro ⟨n, rfl, h⟩
        cases n with
        | zero => left; simp
        | succ n =>
          right
          refine ⟨n, by push_cast; ring, ?_⟩
          intro m hm
          exact (matchAt_cons_succ _ _ _ _).1 (h (m + 1) (by omega))
    · simp only [scanUp, hp, Bool.false_eq_true, ↓reduceIte, List.not_mem_nil, false_iff]
      rintro ⟨n, _, h⟩
      exact hp ((matchAt_cons_zero _ _ _).1 (h 0 (Nat.zero_le _)))

theorem scanUp_pairwise (text : Str) : ∀ (l : tokens) (i : Int),
    (scanUp text l i).Pairwise (fun a b => a < b)
  | [], i => by simp [scanUp]
  | t :: rest, i => by
    by_cases hp : HasPrefix t.value text = true
    · simp only [scanUp, hp, ↓reduceIte, List.pairwise_cons]
      refine ⟨?_, scanUp_pairwise text rest (i + 1)⟩
      intro j hj
      obtain ⟨n, rfl, _⟩ := (scanUp_mem text rest (i + 1) j).1 hj
      omega
    · simp [scanUp, hp]

theorem scanDown_mem (tok : tokens) (text : Str) : ∀ (n : Nat) (j : Int),
    j ∈ scanDown tok text n ↔
      ∃ m : Nat, m < n ∧ j = m ∧ ∀ x, m ≤ x → x < n → matchAt tok text x
  | 0, j => by simp [scanDown]
  | i + 1, j => by
    rw [scanDown]
    cases hget : tok[i]? with
    | none =>
      simp only [List.not_mem_nil, false_iff]
      rintro ⟨m, hm, _, h⟩
      obtain ⟨t, ht, _⟩ := h i (by omega) (by omega)
      rw [hget] at ht
      exact Option.noConfusion ht
    | some t =>
      by_cases hp : HasPrefix t.value text = true
      · simp only [hp, ↓reduceIte, List.mem_cons, scanDown_mem tok text i j]
        constructor
        · rintro (rfl | ⟨m, hm, rfl, h⟩)
          · refine ⟨i, by omega, rfl, ?_⟩
            intro x hx1 hx2
            have : x = i := by omega
            subst this
            exact ⟨t, hget, hp⟩
          · refine ⟨m, by omega, rfl, ?_⟩
            intro x hx1 hx2
            rcases Nat.lt_or_ge x i with hx | hx
            · exact h x hx1 hx
            · have : x = i := by omega
              subst this
              exact ⟨t, hget, hp⟩
        · rintro ⟨m, hm, rfl, h⟩
          rcases Nat.lt_or_ge m i with hx | hx
          · right
            exact ⟨m, hx, rfl, fun x hx1 hx2 => h x hx1 (by omega)⟩
          · left
            have : m = i := by omega
            subst this
            rfl
      · simp only [hp, Bool.false_eq_true, ↓reduceIte, List.not_mem_nil, false_iff]
        rintro ⟨m, hm, _, h⟩
        obtain ⟨t2, ht2, hp2⟩ := h i (by omega) (by omega)
        rw [hget] at ht2
        cases ht2
        exact hp hp2

theorem scanDown_pairwise (tok : tokens) (text : Str) : ∀ (n : Nat),
    (scanDown tok text n).Pairwise (fun a b => b < a)
  | 0 => by simp [scanDown]
  | i + 1 => by
    rw [scanDown]
    cases hget : tok[i]? with
    | none => simp
    | some t =>
      by_cases hp : HasPrefix t.value text = true
      · simp only [hp, ↓reduceIte, List.pairwise_cons]
        refine ⟨?_, scanDown_pairwise tok text i⟩
        intro j hj
        obtain ⟨m, hm, rfl, _⟩ := (scanDown_mem tok text i j).1 hj
        omega
      · simp [hp]

/-! ## `searchPosition` -/

theorem searchPosition_cases (tok : tokens) (text : Str) :
    (searchIn tok text 0 = -1 ∧ searchPosition tok text = []) ∨
    ∃ k : Nat, matchAt tok text k ∧
      searchPosition tok text =
        [(k : Int)] ++ scanUp text (tok.drop (k + 1)) ((k : Int) + 1) ++ scanDown tok text k := by
  rcases searchIn_sound tok.length tok text 0 (le_refl _) with h | ⟨k, _, h, hm⟩
  · left
    refine ⟨h, ?_⟩
    simp [searchPosition, h]
  · right
    refine ⟨k, hm, ?_⟩
    have hk : searchIn tok text 0 = (k : Int) := by rw [h]; simp
    have hne : (k : Int) ≠ -1 := by omega
    have e1 : ((k : Int) + 1).toNat = k + 1 := by omega
    simp only [searchPosition, hk, ne_eq, hne, not_false_eq_true, ↓reduceIte, e1, Int.toNat_ofNat]

theorem searchPosition_range (tok : tokens) (text : Str) (i : Int)
    (hi : i ∈ searchPosition tok text) : ∃ n : Nat, i = n ∧ matchAt tok text n := by
  rcases searchPosition_cases tok text with ⟨_, h⟩ | ⟨k, hk, h⟩
  · rw [h] at hi; simp at hi
  · rw [h] at hi
    simp only [List.mem_append, List.mem_singleton] at hi
    rcases hi with (rfl | hi) | hi
    · exact ⟨k, rfl, hk⟩
    · obtain ⟨n, rfl, hm⟩ := (scanUp_mem _ _ _ _).1 hi
      refine ⟨k + 1 + n, by push_cast; ring, ?_⟩
      exact (matchAt_drop _ _ _ _).1 (hm n (le_refl _))
    · obtain ⟨m, _, rfl, hm⟩ := (scanDown_mem _ _ _ _).1 hi
      exact ⟨m, rfl, hm m (le_refl _) (by omega)⟩

theorem searchPosition_nodup (tok : tokens) (text : Str) : (searchPosition tok text).Nodup := by
  rcases searchPosition_cases tok text with ⟨_, h⟩ | ⟨k, _, h⟩
  · rw [h]; exact List.nodup_nil
  · rw [h]
    have hup : (scanUp text (tok.drop (k + 1)) ((k : Int) + 1)).Nodup :=
      (scanUp_pairwise _ _ _).imp (fun hab => ne_of_lt hab)
    have hdown : (scanDown tok text k).Nodup :=
      (scanDown_pairwise _ _ _).imp (fun hab => (ne_of_lt hab).symm)
    rw [List.append_assoc, List.singleton_append, List.nodup_cons]
    constructor
    · simp only [List.mem_append, not_or]
      constructor
      · intro hm
        obtain ⟨n, hn, _⟩ := (scanUp_mem _ _ _ _).1 hm
        omega
      · intro hm
        obtain ⟨m, hlt, hn, _⟩ := (scanDown_mem _ _ _ _).1 hm
        omega
    · rw [List.nodup_append]
      refine ⟨hup, hdown, ?_⟩
      intro a ha hb
      obtain ⟨n, hn, _⟩ := (scanUp_mem _ _ _ _).1 ha
      obtain ⟨m, hlt, hm, _⟩ := (scanDown_mem _ _ _ _).1 hb
      omega

theorem searchPosition_mem (tok : tokens) (text : Str) (hs : tok.Sorted tokenLe) (n : Nat) :
    (n : Int) ∈ searchPosition tok text ↔ matchAt tok text n := by
  constructor
  · intro h
    obtain ⟨m, hm, h2⟩ := searchPosition_range tok text _ h
    have : n = m := by omega
    subst this
    exact h2
  · intro hn
    rcases searchPosition_cases tok text with ⟨h0, _⟩ | ⟨k, hk, h⟩
    · exfalso
      obtain ⟨t, ht, hp⟩ := hn
      have hnp := searchIn_complete tok.length tok text 0 (le_refl _) hs (le_refl _) h0 t
        (List.getElem?_mem ht)
      rw [hp] at hnp
      exact Bool.noConfusion hnp
    · rw [h]
      simp only [List.mem_append, List.mem_singleton]
      rcases Nat.lt_trichotomy n k with hlt | heq | hgt
      · right
        refine (scanDown_mem _ _ _ _).2 ⟨n, hlt, rfl, ?_⟩
        intro x hx1 hx2
        exact matchAt_between tok text hs n x k hn hk hx1 (by omega)
      · left; left
        rw [heq]
      · left; right
        refine (scanUp_mem _ _ _ _).2 ⟨n - (k + 1), by omega, ?_⟩
        intro m hm
        rw [matchAt_drop]
        exact matchAt_between tok text hs k (k + 1 + m) n hk hn (by omega) (by omega)

theorem searchPosition_eq_nil_iff (tok : tokens) (text : Str) (hs : tok.Sorted tokenLe) :
    searchPosition tok text = [] ↔ ∀ t ∈ tok, HasPrefix t.value text = false := by
  constructor
  · intro h t ht
    cases hp : HasPrefix t.value text
    · rfl
    · exfalso
      obtain ⟨n, hn, hget⟩ := List.mem_iff_getElem.1 ht
      have hm : matchAt tok text n := ⟨t, by rw [List.getElem?_eq_getElem hn, hget], hp⟩
      have := (searchPosition_mem tok text hs n).2 hm
      rw [h] at this
      simp at this
  · intro h
    rcases searchPosition_cases tok text with ⟨_, h0⟩ | ⟨k, ⟨t, ht, hp⟩, _⟩
    · exact h0
    · exfalso
      have := h t (List.getElem?_mem ht)
      rw [hp] at this
      exact Bool.noConfusion this

/-! ## Claims -/

/-- C1. On a table sorted ascending by value and for a non-empty text, `searchPosition`
returns a list without repetition of positions that are in range, whose members are
exactly the positions of the tokens whose value starts with the text; it returns the empty
list exactly when no token value starts with the text. -/
theorem searchPosition_correct (tok : tokens) (text : Str) (hs : tok.Sorted tokenLe)
    (_hne : text ≠ []) :
    (searchPosition tok text).Nodup ∧
    (∀ i ∈ searchPosition tok text, 0 ≤ i ∧ i < tok.length) ∧
    (∀ n : Nat, (n : Int) ∈ searchPosition tok text ↔
      ∃ t, tok[n]? = some t ∧ HasPrefix t.value text = true) ∧
    (searchPosition tok text = [] ↔ ∀ t ∈ tok, HasPrefix t.value text = false) := by
  refine ⟨searchPosition_nodup tok text, ?_, ?_, searchPosition_eq_nil_iff tok text hs⟩
  · intro i hi
    obtain ⟨n, rfl, hm⟩ := searchPosition_range tok text i hi
    have := matchAt_lt_length hm
    omega
  · intro n
    exact searchPosition_mem tok text hs n

/-! ## Intersection -/

theorem sortStrings_sorted (l : List Str) : (sortStrings l).Sorted StrLe :=
  @List.sorted_insertionSort _ StrLe _ ⟨StrLe_total⟩ ⟨StrLe_trans⟩ l

theorem sortStrings_perm (l : List Str) : (sortStrings l).Perm l :=
  List.perm_insertionSort StrLe l

theorem mem_sortStrings (l : List Str) (x : Str) : x ∈ sortStrings l ↔ x ∈ l :=
  (sortStrings_perm l).mem_iff

theorem sortStrings_of_sorted (l : List Str) (h : l.Sorted StrLe) : sortStrings l = l :=
  List.Sorted.insertionSort_eq h

theorem intersectInner_suffix (x : Str) : ∀ b : List Str, (intersectInner x b).2 <:+ b
  | [] => by simp [intersectInner]
  | y :: b => by
    rw [intersectInner]
    split
    · exact List.suffix_refl _
    · split
      · exact (intersectInner_suffix x b).trans (List.suffix_cons y b)
      · exact List.suffix_cons y b

theorem intersectInner_keep (x z : Str) (hz : strLt x z = true) :
    ∀ b : List Str, z ∈ b → z ∈ (intersectInner x b).2
  | [], h => by simp at h
  | y :: b, h => by
    rw [intersectInner]
    split
    · exact h
    · rename_i hxy
      have hne : z ≠ y := by
        rintro rfl
        exact hxy hz
      have hzb : z ∈ b := by
        rcases List.mem_cons.1 h with h | h
        · exact absurd h hne
        · exact h
      split
      · exact intersectInner_keep x z hz b hzb
      · exact hzb

theorem intersectInner_hit (x : Str) : ∀ b : List Str, (intersectInner x b).1 = true → x ∈ b
  | [], h => by simp [intersectInner] at h
  | y :: b, h => by
    rw [intersectInner] at h
    split at h
    · simp at h
    · rename_i hxy
      split at h
      · exact List.mem_cons_of_mem _ (intersectInner_hit x b h)
      · rename_i hyx
        have : x = y := strLt_connex x y (by simpa using hxy) (by simpa using hyx)
        rw [this]
        exact List.mem_cons_self _ _

theorem intersectInner_hit_of_mem (x : Str) : ∀ b : List Str, b.Sorted StrLe → x ∈ b →
    (intersectInner x b).1 = true
  | [], _, h => by simp at h
  | y :: b, hs, h => by
    rw [intersectInner]
    split
    · rename_i hxy
      exfalso
      rcases List.mem_cons.1 h with h | h
      · rw [h, strLt_irrefl] at hxy
        exact Bool.noConfusion hxy
      · have hle : StrLe y x := List.rel_of_sorted_cons hs x h
        unfold StrLe at hle
        rw [hxy] at hle
        exact Bool.noConfusion hle
    · split
      · rename_i hyx
        have hne : x ≠ y := by
          rintro rfl
          rw [strLt_irrefl] at hyx
          exact Bool.noConfusion hyx
        have hxb : x ∈ b := by
          rcases List.mem_cons.1 h with h | h
          · exact absurd h hne
          · exact h
        exact intersectInner_hit_of_mem x b hs.of_cons hxb
      · rfl

theorem intersectOuter_sublist : ∀ a b : List Str, (intersectOuter a b).Sublist a
  | [], _ => by simp [intersectOuter]
  | x :: a, b => by
    rw [intersectOuter]
    have hrest : (if (intersectInner x b).2.length = 0 then []
        else intersectOuter a (intersectInner x b).2).Sublist a := by
      split
      · exact List.nil_sublist _
      · exact intersectOuter_sublist a _
    split
    · exact hrest.cons₂ x
    · exact hrest.cons x

theorem intersectOuter_mem (z : Str) : ∀ a b : List Str, a.Sorted StrLe → b.Sorted StrLe →
    (z ∈ intersectOuter a b ↔ z ∈ a ∧ z ∈ b)
  | [], _, _, _ => by simp [intersectOuter]
  | x :: a, b, ha, hb => by
    have hsuf := intersectInner_suffix x b
    have hs2 : (intersectInner x b).2.Sorted StrLe := hb.sublist hsuf.sublist
    have ih := intersectOuter_mem z a (intersectInner x b).2 ha.of_cons hs2
    have hrest : z ∈ (if (intersectInner x b).2.length = 0 then []
        else intersectOuter a (intersectInner x b).2) ↔
          z ∈ a ∧ z ∈ (intersectInner x b).2 := by
      split
      · rename_i h0
        rw [List.length_eq_zero.1 h0]
        simp
      · exact ih
    rw [intersectOuter]
    constructor
    · intro h
      have hz : z = x ∧ (intersectInner x b).1 = true ∨
          (z ∈ a ∧ z ∈ (intersectInner x b).2) := by
        split at h
        · rename_i h1
          rcases List.mem_cons.1 h with h | h
          · exact Or.inl ⟨h, h1⟩
          · exact Or.inr (hrest.1 h)
        · exact Or.inr (hrest.1 h)
      rcases hz with ⟨rfl, h1⟩ | ⟨h1, h2⟩
      · exact ⟨List.mem_cons_self _ _, intersectInner_hit _ b h1⟩
      · exact ⟨List.mem_cons_of_mem _ h1, hsuf.subset h2⟩
    · rintro ⟨hza, hzb⟩
      by_cases hzx : z = x
      · subst hzx
        rw [intersectInner_hit_of_mem z b hb hzb]
        exact List.mem_cons_self _ _
      · have hza2 : z ∈ a := by
          rcases List.mem_cons.1 hza with h | h
          · exact absurd h hzx
          · exact h
        have hle : StrLe x z := List.rel_of_sorted_cons ha z hza2
        have hlt : strLt x z = true := by
          cases h : strLt x z
          · exact absurd (strLt_connex x z h hle).symm hzx
          · rfl
        have hin := hrest.2 ⟨hza2, intersectInner_keep x z hlt b hzb⟩
        split
        · exact List.mem_cons_of_mem _ hin
        · exact hin

/-- Whatever the two lists, `intersect` keeps exactly the strings that are in both. -/
theorem intersect_mem (a b : List Str) (z : Str) : z ∈ intersect a b ↔ z ∈ a ∧ z ∈ b := by
  unfold intersect
  split
  · rename_i h
    rcases h with h | h
    · rw [List.length_eq_zero.1 h]; simp
    · rw [List.length_eq_zero.1 h]; simp
  · rw [intersectOuter_mem z _ _ (sortStrings_sorted a) (sortStrings_sorted b),
      mem_sortStrings, mem_sortStrings]

theorem intersect_sublist (a b : List Str) : (intersect a b).Sublist (sortStrings a) := by
  unfold intersect
  split
  · exact List.nil_sublist _
  · exact intersectOuter_sublist _ _

/-- C2. For sorted lists `a` and `b` without duplicates, `intersect a b` is sorted
ascending, has no duplicates, and contains `x` exactly when `x` is in both `a` and `b`. -/
theorem intersect_correct (a b : List Str) (ha : a.Sorted StrLe) (hna : a.Nodup)
    (_hb : b.Sorted StrLe) (_hnb : b.Nodup) :
    (intersect a b).Sorted StrLe ∧ (intersect a b).Nodup ∧
      ∀ x, x ∈ intersect a b ↔ x ∈ a ∧ x ∈ b := by
  have hsub : (intersect a b).Sublist a := by
    have := intersect_sublist a b
    rwa [sortStrings_of_sorted a ha] at this
  exact ⟨ha.sublist hsub, hna.sublist hsub, intersect_mem a b⟩

/-! ## Multi-term search -/

theorem collectIds_mem (tks : tokens) (x : Str) : ∀ ps : List Int,
    x ∈ collectIds tks ps ↔ ∃ p ∈ ps, x ∈ idsAt tks p
  | [] => by simp [collectIds]
  | p :: ps => by
    rw [collectIds, List.mem_append, collectIds_mem tks x ps]
    simp

theorem collectIds_searchPosition (tks : tokens) (hs : tks.Sorted tokenLe) (t x : Str) :
    x ∈ collectIds tks (searchPosition tks t) ↔ termHas tks t x := by
  rw [collectIds_mem]
  constructor
  · rintro ⟨p, hp, hx⟩
    obtain ⟨n, rfl, tok, htok, hpre⟩ := searchPosition_range tks t p hp
    refine ⟨tok, List.getElem?_mem htok, hpre, ?_⟩
    simpa [idsAt, htok] using hx
  · rintro ⟨tok, hmem, hpre, hx⟩
    obtain ⟨n, hn⟩ := List.mem_iff_getElem?.1 hmem
    refine ⟨(n : Int), (searchPosition_mem tks t hs n).2 ⟨tok, hn, hpre⟩, ?_⟩
    simpa [idsAt, hn] using hx

theorem searchPosition_nil_termHas (tks : tokens) (hs : tks.Sorted tokenLe) (t x : Str)
    (h : (searchPosition tks t).length = 0) : ¬ termHas tks t x := by
  rintro ⟨tok, hmem, hpre, _⟩
  have := (searchPosition_eq_nil_iff tks t hs).1 (List.length_eq_zero.1 h) tok hmem
  rw [hpre] at this
  exact Bool.noConfusion this

theorem searchLoop_base (tks : tokens) (dico : GoMap Str) (idx : Nat) (results : List Str) :
    (searchLoop tks dico [] idx results).map Music.Id = results := by
  simp [searchLoop, List.map_map, Function.comp_def]

/-- The loop of `searchSome` after its first term: the identifiers kept are those of
`results` that every remaining term lists. -/
theorem searchLoop_mem (tks : tokens) (dico : GoMap Str) (hs : tks.Sorted tokenLe) (x : Str) :
    ∀ (terms : List Str) (idx : Nat) (results : List Str), idx ≠ 0 →
      (x ∈ (searchLoop tks dico terms idx results).map Music.Id ↔
        x ∈ results ∧ ∀ t ∈ terms, termHas tks t x)
  | [], idx, results, _ => by
    rw [searchLoop_base]
    simp
  | t :: terms, idx, results, hidx => by
    rw [searchLoop]
    simp only [hidx, ↓reduceIte]
    split
    · rename_i h0
      have := searchPosition_nil_termHas tks hs t x h0
      simp [this]
    · split
      · rename_i h1
        have hx : ¬ (x ∈ results ∧ termHas tks t x) := by
          rw [← collectIds_searchPosition tks hs t x, ← intersect_mem, List.length_eq_zero.1 h1]
          simp
        simp only [List.map_nil, List.not_mem_nil, List.mem_cons, forall_eq_or_imp, false_iff]
        tauto
      · rw [searchLoop_mem tks dico hs x terms (idx + 1) _ (Nat.succ_ne_zero _), intersect_mem,
          collectIds_searchPosition tks hs t x]
        simp only [List.mem_cons, forall_eq_or_imp]
        tauto

/-- The identifiers returned by `searchSome` are those that every term of the query lists. -/
theorem searchSome_mem (text : Str) (tks : tokens) (dico : GoMap Str)
    (hs : tks.Sorted tokenLe) (x : Str) :
    x ∈ (searchSome text tks dico).map Music.Id ↔ ∀ t ∈ Split text, termHas tks t x := by
  unfold searchSome
  cases hsp : Split text with
  | nil =>
    exfalso
    cases text with
    | nil => simp [Split] at hsp
    | cons c cs =>
      rw [Split] at hsp
      split at hsp
      · exact List.noConfusion hsp
      · split at hsp <;> exact List.noConfusion hsp
  | cons t terms =>
    rw [searchLoop]
    simp only [↓reduceIte]
    split
    · rename_i h0
      have := searchPosition_nil_termHas tks hs t x h0
      simp [this]
    · rw [searchLoop_mem tks dico hs x terms 1 _ (by decide),
        collectIds_searchPosition tks hs t x]
      simp only [List.mem_cons, forall_eq_or_imp]

/-- C3. On a sorted table, the identifiers of the entities returned by `searchSome` are
exactly those that, for every term of the query cut at single spaces, are in the `ids` of a
token whose value starts with that term; and on the index built from the three artists of
the scenario the query "jean gold" returns the single entity a2, named "Jean Gold". -/
theorem searchSome_correct :
    (∀ (text : Str) (tks : tokens) (dico : GoMap Str), tks.Sorted tokenLe →
      ∀ x, x ∈ (searchSome text tks dico).map Music.Id ↔
        ∀ t ∈ Split text, ∃ tok ∈ tks, HasPrefix tok.value t = true ∧ x ∈ tok.ids) ∧
    searchSome "jean gold".toList scenarioTable scenarioDico =
      [⟨"Jean Gold".toList, "Jean Gold".toList, [], "a2".toList, []⟩] := by
  constructor
  · intro text tks dico hs x
    exact searchSome_mem text tks dico hs x
  · have hsplit : Split "jean gold".toList = ["jean".toList, "gold".toList] := by decide
    rw [searchSome, hsplit]
    simp only [searchLoop, searchPosition, searchIn_eval]
    decide

/-! ## Playlist reordering -/

theorem GoMap.get?_set_same {V : Type} : ∀ (m : GoMap V) (k : Str) (v : V),
    GoMap.get? (GoMap.set m k v) k = some v
  | [], k, v => by simp [GoMap.set, GoMap.get?]
  | (k0, v0) :: m, k, v => by
    by_cases h : k0 = k
    · simp [GoMap.set, GoMap.get?, h]
    · simp [GoMap.set, GoMap.get?, h, GoMap.get?_set_same m k v]

theorem GoMap.get?_set_other {V : Type} : ∀ (m : GoMap V) (k k2 : Str) (v : V), k ≠ k2 →
    GoMap.get? (GoMap.set m k v) k2 = GoMap.get? m k2
  | [], k, k2, v, hne => by simp [GoMap.set, GoMap.get?, hne]
  | (k0, v0) :: m, k, k2, v, hne => by
    by_cases h : k0 = k
    · subst h
      simp [GoMap.set, GoMap.get?, hne]
    · by_cases h2 : k0 = k2
      · subst h2
        simp [GoMap.set, GoMap.get?, h]
      · simp [GoMap.set, GoMap.get?, h, h2, GoMap.get?_set_other m k k2 v hne]

theorem getMusicsAsMapLoop_absent (key : Str) : ∀ (musics : List Music) (m : GoMap Music),
    (∀ mu ∈ musics, mu.Id ≠ key) →
      GoMap.get? (getMusicsAsMapLoop musics m) key = GoMap.get? m key
  | [], m, _ => rfl
  | music :: musics, m, h => by
    rw [getMusicsAsMapLoop, getMusicsAsMapLoop_absent key musics _
      (fun mu hmu => h mu (List.mem_cons_of_mem _ hmu))]
    exact GoMap.get?_set_other m _ _ _ (h music (List.mem_cons_self _ _))

theorem getMusicsAsMapLoop_present (key : Str) : ∀ (musics : List Music) (m : GoMap Music),
    (∃ mu ∈ musics, mu.Id = key) →
    ∃ mu ∈ musics, mu.Id = key ∧ GoMap.get? (getMusicsAsMapLoop musics m) key = some mu
  | [], m, h => by
    obtain ⟨mu, hmu, _⟩ := h
    simp at hmu
  | music :: musics, m, h => by
    rw [getMusicsAsMapLoop]
    by_cases hrest : ∃ mu ∈ musics, mu.Id = key
    · obtain ⟨mu, hmu, hid, hget⟩ := getMusicsAsMapLoop_present key musics
        (GoMap.set m music.Id music) hrest
      exact ⟨mu, List.mem_cons_of_mem _ hmu, hid, hget⟩
    · have hkey : music.Id = key := by
        obtain ⟨mu, hmu, hid⟩ := h
        rcases List.mem_cons.1 hmu with rfl | hmu
        · exact hid
        · exact absurd ⟨mu, hmu, hid⟩ hrest
      refine ⟨music, List.mem_cons_self _ _, hkey, ?_⟩
      rw [getMusicsAsMapLoop_absent key musics _ (fun mu hmu hid => hrest ⟨mu, hmu, hid⟩),
        ← hkey]
      exact GoMap.get?_set_same m _ _

theorem musicAt_present (key : Str) (musics : List Music) (h : ∃ mu ∈ musics, mu.Id = key) :
    musicAt (getMusicsAsMap musics) key ∈ musics ∧
      (musicAt (getMusicsAsMap musics) key).Id = key := by
  obtain ⟨mu, hmu, hid, hget⟩ := getMusicsAsMapLoop_present key musics [] h
  simp only [musicAt, getMusicsAsMap, hget]
  exact ⟨hmu, hid⟩

/-- C4. When both fetches succeed and the batch holds, in any order, a track for each
identifier of the playback sequence, `GetPlaylist` returns as many tracks as there are
identifiers, the track at index `i` being a batch track whose `Id` is the decimal
rendering of the identifier at index `i`; for the sequence 7, 3, 9 and any rearrangement of
three tracks with these identifiers the output is in the order 7, 3, 9. -/
theorem GetPlaylist_order :
    (∀ (ids : List Int) (musics : List Music) (GetMusics : List Int → Result (List Music)),
      GetMusics ids = (musics, none) →
      (∀ id ∈ ids, ∃ mu ∈ musics, mu.Id = Sprintf_d id) →
      ∃ out, GetPlaylist (ids, none) GetMusics = (out, none) ∧ out.length = ids.length ∧
        ∀ (i : Nat) (id : Int), ids[i]? = some id →
          ∃ mu, out[i]? = some mu ∧ mu ∈ musics ∧ mu.Id = Sprintf_d id) ∧
    (∀ (t7 t3 t9 : Music) (batch : List Music),
      t7.Id = "7".toList → t3.Id = "3".toList → t9.Id = "9".toList →
      batch.Perm [t7, t3, t9] →
      GetPlaylist ([7, 3, 9], none) (fun _ => (batch, none)) = ([t7, t3, t9], none)) := by
  constructor
  · intro ids musics GetMusics hget hall
    refine ⟨ids.map (fun id => musicAt (getMusicsAsMap musics) (Sprintf_d id)), ?_, ?_, ?_⟩
    · simp [GetPlaylist, hget]
    · simp
    · intro i id hi
      refine ⟨musicAt (getMusicsAsMap musics) (Sprintf_d id), ?_, ?_⟩
      · rw [List.getElem?_map, hi]; rfl
      · exact musicAt_present _ musics (hall id (List.getElem?_mem hi))
  · intro t7 t3 t9 batch h7 h3 h9 hperm
    have hmem : ∀ mu, mu ∈ batch ↔ mu = t7 ∨ mu = t3 ∨ mu = t9 := by
      intro mu
      rw [hperm.mem_iff]
      simp
    have key : ∀ (k : Str) (t : Music), t.Id = k → t ∈ batch →
        (∀ mu ∈ batch, mu.Id = k → mu = t) → musicAt (getMusicsAsMap batch) k = t := by
      intro k t hk ht huniq
      have := musicAt_present k batch ⟨t, ht, hk⟩
      exact huniq _ this.1 this.2
    have d7 : Sprintf_d 7 = "7".toList := by decide
    have d3 : Sprintf_d 3 = "3".toList := by decide
    have d9 : Sprintf_d 9 = "9".toList := by decide
    have n73 : "7".toList ≠ "3".toList := by decide
    have n79 : "7".toList ≠ "9".toList := by decide
    have n39 : "3".toList ≠ "9".toList := by decide
    have e7 : musicAt (getMusicsAsMap batch) "7".toList = t7 := by
      refine key _ t7 h7 ((hmem _).2 (Or.inl rfl)) ?_
      intro mu hmu hid
      rcases (hmem mu).1 hmu with rfl | rfl | rfl
      · rfl
      · rw [h3] at hid; exact absurd hid.symm n73
      · rw [h9] at hid; exact absurd hid.symm n79
    have e3 : musicAt (getMusicsAsMap batch) "3".toList = t3 := by
      refine key _ t3 h3 ((hmem _).2 (Or.inr (Or.inl rfl))) ?_
      intro mu hmu hid
      rcases (hmem mu).1 hmu with rfl | rfl | rfl
      · rw [h7] at hid; exact absurd hid n73
      · rfl
      · rw [h9] at hid; exact absurd hid.symm n39
    have e9 : musicAt (getMusicsAsMap batch) "9".toList = t9 := by
      refine key _ t9 h9 ((hmem _).2 (Or.inr (Or.inr rfl))) ?_
      intro mu hmu hid
      rcases (hmem mu).1 hmu with rfl | rfl | rfl
      · rw [h7] at hid; exact absurd hid n79
      · rw [h3] at hid; exact absurd hid n39
      · rfl
    simp only [GetPlaylist, List.map_cons, List.map_nil, d7, d3, d9, e7, e3, e9]

/-! ## Query routing -/

theorem HasPrefix_colon (term rest : Str) (h : HasPrefix term (':' :: rest) = true) :
    HasPrefix term ":".toList = true := by
  cases term with
  | nil => simp [HasPrefix] at h
  | cons c cs =>
    rw [HasPrefix_cons_cons] at h
    show HasPrefix (c :: cs) [':'] = true
    rw [HasPrefix_cons_cons]
    exact ⟨h.1, HasPrefix_nil _⟩

theorem HybridSearch_song (nsw : MusicServerWrapper) (Search : Str → List Music) (term : Str)
    (h1 : HasPrefix term ":artist ".toList = false) (h2 : HasPrefix term ":album ".toList = false) :
    nsw.HybridSearch Search term = (Search term, SongKind) := by
  have n1 : ¬ HasPrefix term ":artist ".toList = true := by rw [h1]; exact Bool.false_ne_true
  have n2 : ¬ HasPrefix term ":album ".toList = true := by rw [h2]; exact Bool.false_ne_true
  unfold MusicServerWrapper.HybridSearch
  rw [if_neg n1, if_neg n2, if_neg n2]
  split <;> rfl

/-- C5. `HybridSearch` answers with `searchSome` of the text after ":artist " over the
artist index and the artist dictionary, and the tag `ArtistKind`, exactly when the term
starts with ":artist "; otherwise with `searchSome` of the text after ":album " over the
album index and the album dictionary, and the tag `AlbumKind`, exactly when the term starts
with ":album "; in every other case, ":foobar" and "foo" included, with the free-text
song search of the whole term and the tag `SongKind`. -/
theorem HybridSearch_routes (nsw : MusicServerWrapper) (Search : Str → List Music) :
    (∀ term rest, term = ":artist ".toList ++ rest →
      nsw.HybridSearch Search term =
        (searchSome rest nsw.artistTokens nsw.artistDico, ArtistKind)) ∧
    (∀ term rest, term = ":album ".toList ++ rest →
      nsw.HybridSearch Search term =
        (searchSome rest nsw.albumTokens nsw.albumDico, AlbumKind)) ∧
    (∀ term, HasPrefix term ":artist ".toList = false →
      HasPrefix term ":album ".toList = false →
      nsw.HybridSearch Search term = (Search term, SongKind)) ∧
    (∀ term, (nsw.HybridSearch Search term).2 = ArtistKind ↔
      HasPrefix term ":artist ".toList = true) ∧
    (∀ term, (nsw.HybridSearch Search term).2 = AlbumKind ↔
      HasPrefix term ":album ".toList = true) ∧
    nsw.HybridSearch Search ":foobar".toList = (Search ":foobar".toList, SongKind) ∧
    nsw.HybridSearch Search "foo".toList = (Search "foo".toList, SongKind) := by
  have hart : ∀ term, HasPrefix term ":artist ".toList = true →
      nsw.HybridSearch Search term = (nsw.SearchArtists (term.drop 8), ArtistKind) := by
    intro term h
    unfold MusicServerWrapper.HybridSearch
    rw [if_pos (HasPrefix_colon term _ h), if_pos h]
  have halb : ∀ term, HasPrefix term ":album ".toList = true →
      nsw.HybridSearch Search term = (nsw.SearchAlbums (term.drop 7), AlbumKind) := by
    intro term h
    have hna : ¬ HasPrefix term ":artist ".toList = true := by
      obtain ⟨x, rfl⟩ := (HasPrefix_iff_append _ _).1 h
      simp [HasPrefix]
    unfold MusicServerWrapper.HybridSearch
    rw [if_pos (HasPrefix_colon term _ h), if_neg hna, if_pos h]
  have hAS : ArtistKind ≠ SongKind := by decide
  have hAA : ArtistKind ≠ AlbumKind := by decide
  have hLS : AlbumKind ≠ SongKind := by decide
  refine ⟨?_, ?_, HybridSearch_song nsw Search, ?_, ?_, ?_, ?_⟩
  · rintro term rest rfl
    rw [hart _ ((HasPrefix_iff_append _ _).2 ⟨rest, rfl⟩)]
    simp [MusicServerWrapper.SearchArtists]
  · rintro term rest rfl
    rw [halb _ ((HasPrefix_iff_append _ _).2 ⟨rest, rfl⟩)]
    simp [MusicServerWrapper.SearchAlbums]
  · intro term
    cases h1 : HasPrefix term ":artist ".toList
    · cases h2 : HasPrefix term ":album ".toList
      · rw [HybridSearch_song nsw Search term h1 h2]
        simp [hAS.symm]
      · rw [halb term h2]
        simp [hAA.symm]
    · rw [hart term h1]
      simp
  · intro term
    cases h2 : HasPrefix term ":album ".toList
    · cases h1 : HasPrefix term ":artist ".toList
      · rw [HybridSearch_song nsw Search term h1 h2]
        simp [hLS.symm]
      · rw [hart term h1]
        simp [hAA]
    · rw [halb term h2]
      simp
  · exact HybridSearch_song nsw Search _ (by decide) (by decide)
  · exact HybridSearch_song nsw Search _ (by decide) (by decide)

/-! ## The table built by `createTokensTable` -/

theorem GoMap.keys_nil {V : Type} : GoMap.keys ([] : GoMap V) = [] := rfl

theorem GoMap.keys_cons {V : Type} (k : Str) (v : V) (m : GoMap V) :
    GoMap.keys ((k, v) :: m) = k :: GoMap.keys m := rfl

theorem GoMap.mem_keys_of_mem {V : Type} : ∀ (m : GoMap V) (k : Str) (v : V),
    (k, v) ∈ m → k ∈ GoMap.keys m
  | [], _, _, h => by cases h
  | (k0, v0) :: m, k, v, h => by
    rw [GoMap.keys_cons]
    rcases List.mem_cons.1 h with e | e
    · rw [(Prod.mk.inj e).1]
      exact List.mem_cons_self _ _
    · exact List.mem_cons_of_mem _ (GoMap.mem_keys_of_mem m k v e)

theorem GoMap.mem_keys_set {V : Type} : ∀ (m : GoMap V) (k : Str) (v : V) (x : Str),
    x ∈ GoMap.keys (GoMap.set m k v) ↔ x = k ∨ x ∈ GoMap.keys m
  | [], k, v, x => by
    simp only [GoMap.set, GoMap.keys_cons, GoMap.keys_nil, List.mem_cons]
  | (k0, v0) :: m, k, v, x => by
    have ih := GoMap.mem_keys_set m k v x
    by_cases h : k0 = k
    · subst h
      simp only [GoMap.set, ↓reduceIte, GoMap.keys_cons, List.mem_cons]
      tauto
    · simp only [GoMap.set, h, ↓reduceIte, GoMap.keys_cons, List.mem_cons, ih]
      tauto

theorem GoMap.nodup_keys_set {V : Type} : ∀ (m : GoMap V) (k : Str) (v : V),
    (GoMap.keys m).Nodup → (GoMap.keys (GoMap.set m k v)).Nodup
  | [], k, v, _ => by
    simp only [GoMap.set, GoMap.keys_cons, GoMap.keys_nil]
    exact List.nodup_singleton k
  | (k0, v0) :: m, k, v, hn => by
    rw [GoMap.keys_cons, List.nodup_cons] at hn
    by_cases h : k0 = k
    · subst h
      simp only [GoMap.set, ↓reduceIte, GoMap.keys_cons, List.nodup_cons]
      exact hn
    · have ih := GoMap.nodup_keys_set m k v hn.2
      have hmem := GoMap.mem_keys_set m k v k0
      simp only [GoMap.set, h, ↓reduceIte, GoMap.keys_cons, List.nodup_cons]
      refine ⟨?_, ih⟩
      rw [hmem]
      rintro (h1 | h1)
      · exact h h1
      · exact hn.1 h1

theorem GoMap.get?_eq_none {V : Type} : ∀ (m : GoMap V) (k : Str),
    GoMap.get? m k = none ↔ k ∉ GoMap.keys m
  | [], k => by
    simp only [GoMap.get?, GoMap.keys_nil, List.not_mem_nil, not_false_eq_true]
  | (k0, v0) :: m, k => by
    have ih := GoMap.get?_eq_none m k
    by_cases h : k0 = k
    · subst h
      simp only [GoMap.get?, ↓reduceIte, GoMap.keys_cons, List.mem_cons, true_or,
        not_true_eq_false, iff_false]
      exact fun e => Option.noConfusion e
    · simp only [GoMap.get?, h, ↓reduceIte, ih, GoMap.keys_cons, List.mem_cons, not_or]
      constructor
      · intro h2
        exact ⟨fun e => h e.symm, h2⟩
      · intro h2
        exact h2.2

theorem GoMap.get?_eq_some {V : Type} : ∀ (m : GoMap V) (k : Str) (v : V),
    (GoMap.keys m).Nodup → (GoMap.get? m k = some v ↔ (k, v) ∈ m)
  | [], k, v, _ => by
    simp only [GoMap.get?, List.not_mem_nil, iff_false]
    exact fun e => Option.noConfusion e
  | (k0, v0) :: m, k, v, hn => by
    rw [GoMap.keys_cons, List.nodup_cons] at hn
    have ih := GoMap.get?_eq_some m k v hn.2
    by_cases h : k0 = k
    · subst h
      simp only [GoMap.get?, ↓reduceIte, Option.some.injEq, List.mem_cons, Prod.mk.injEq,
        true_and]
      constructor
      · intro e
        exact Or.inl e.symm
      · rintro (e | e)
        · exact e.symm
        · exact absurd (GoMap.mem_keys_of_mem m _ _ e) hn.1
    · simp only [GoMap.get?, h, ↓reduceIte, ih, List.mem_cons, Prod.mk.injEq]
      constructor
      · intro e
        exact Or.inr e
      · rintro (e | e)
        · exact absurd e.1.symm h
        · exact e

theorem bucketOf_set (m : GoMap (List Str)) (k w : Str) (v : List Str) :
    bucketOf (GoMap.set m k v) w = if k = w then v else bucketOf m w := by
  unfold bucketOf
  by_cases h : k = w
  · subst h
    rw [GoMap.get?_set_same]
    simp
  · rw [GoMap.get?_set_other m k w v h]
    simp [h]

theorem bucketOf_addWords (url w : Str) : ∀ (ws : List Str) (m : GoMap (List Str)),
    bucketOf (addWords url ws m) w = bucketOf m w ++ List.replicate (ws.count w) url
  | [], m => by simp [addWords]
  | sub :: ws, m => by
    rw [addWords]
    have ih := bucketOf_addWords url w ws (GoMap.set m sub (bucketOf m sub ++ [url]))
    have hb : (match GoMap.get? m sub with
      | some l => l
      | none => []) = bucketOf m sub := rfl
    simp only [hb]
    rw [ih, bucketOf_set]
    by_cases h : sub = w
    · subst h
      simp [List.count_cons_self, List.replicate_succ]
    · have hne : (sub == w) = false := by simpa using h
      simp [h, List.count_cons, hne]

theorem mem_keys_addWords (url w : Str) : ∀ (ws : List Str) (m : GoMap (List Str)),
    w ∈ GoMap.keys (addWords url ws m) ↔ w ∈ GoMap.keys m ∨ w ∈ ws
  | [], m => by simp [addWords]
  | sub :: ws, m => by
    rw [addWords, mem_keys_addWords url w ws, GoMap.mem_keys_set]
    simp only [List.mem_cons]
    tauto

theorem nodup_keys_addWords (url : Str) : ∀ (ws : List Str) (m : GoMap (List Str)),
    (GoMap.keys m).Nodup → (GoMap.keys (addWords url ws m)).Nodup
  | [], m, h => by simpa [addWords] using h
  | sub :: ws, m, h => by
    rw [addWords]
    exact nodup_keys_addWords url ws _ (GoMap.nodup_keys_set m _ _ h)

theorem bucketOf_fillBuckets (lower : Char → Char) (w : Str) :
    ∀ (values : List musicBy) (m : GoMap (List Str)),
    bucketOf (fillBuckets lower values m) w = bucketOf m w ++ contributions lower values w
  | [], m => by simp [fillBuckets, contributions]
  | e :: values, m => by
    rw [fillBuckets, bucketOf_fillBuckets lower w values, bucketOf_addWords]
    simp [contributions, List.flatMap_cons]

theorem mem_keys_fillBuckets (lower : Char → Char) (w : Str) :
    ∀ (values : List musicBy) (m : GoMap (List Str)),
    w ∈ GoMap.keys (fillBuckets lower values m) ↔
      w ∈ GoMap.keys m ∨ ∃ e ∈ values, w ∈ words lower e.Name
  | [], m => by simp [fillBuckets]
  | e :: values, m => by
    rw [fillBuckets, mem_keys_fillBuckets lower w values, mem_keys_addWords]
    simp only [List.mem_cons, exists_eq_or_imp]
    tauto

theorem nodup_keys_fillBuckets (lower : Char → Char) :
    ∀ (values : List musicBy) (m : GoMap (List Str)),
    (GoMap.keys m).Nodup → (GoMap.keys (fillBuckets lower values m)).Nodup
  | [], m, h => by simpa [fillBuckets] using h
  | e :: values, m, h => by
    rw [fillBuckets]
    exact nodup_keys_fillBuckets lower values _ (nodup_keys_addWords _ _ m h)

theorem createTokensTable_perm (lower : Char → Char) (values : List musicBy) :
    (createTokensTable lower values).Perm
      ((fillBuckets lower values []).map (fun kv => token.mk kv.1 kv.2)) :=
  List.perm_insertionSort _ _

theorem createTokensTable_sorted (lower : Char → Char) (values : List musicBy) :
    (createTokensTable lower values).Sorted tokenLe :=
  @List.sorted_insertionSort _ tokenLe _ ⟨fun x y => StrLe_total x.value y.value⟩
    ⟨fun x y z => StrLe_trans x.value y.value z.value⟩ _

theorem createTokensTable_nodup (lower : Char → Char) (values : List musicBy) :
    ((createTokensTable lower values).map token.value).Nodup := by
  have hp := (createTokensTable_perm lower values).map token.value
  rw [hp.nodup_iff, List.map_map]
  have : (token.value ∘ fun kv : Str × List Str => token.mk kv.1 kv.2) = Prod.fst := rfl
  rw [this]
  exact nodup_keys_fillBuckets lower values [] List.nodup_nil

/-- The tokens of the table: one per word of the listing, with the contributions of the
listing to that word. -/
theorem mem_createTokensTable (lower : Char → Char) (values : List musicBy) (t : token) :
    t ∈ createTokensTable lower values ↔
      (∃ e ∈ values, t.value ∈ words lower e.Name) ∧
        t.ids = contributions lower values t.value := by
  have hn := nodup_keys_fillBuckets lower values [] List.nodup_nil
  rw [(createTokensTable_perm lower values).mem_iff, List.mem_map]
  constructor
  · rintro ⟨⟨k, v⟩, hmem, rfl⟩
    have hget := (GoMap.get?_eq_some _ k v hn).2 hmem
    have hkey : k ∈ GoMap.keys (fillBuckets lower values []) := GoMap.mem_keys_of_mem _ _ _ hmem
    have hb := bucketOf_fillBuckets lower k values []
    constructor
    · rcases (mem_keys_fillBuckets lower k values []).1 hkey with h | h
      · cases h
      · exact h
    · simpa [bucketOf, hget, GoMap.get?] using hb
  · rintro ⟨hw, hids⟩
    have hkey : t.value ∈ GoMap.keys (fillBuckets lower values []) :=
      (mem_keys_fillBuckets lower t.value values []).2 (Or.inr hw)
    cases hget : GoMap.get? (fillBuckets lower values []) t.value with
    | none => exact absurd hkey ((GoMap.get?_eq_none _ _).1 hget)
    | some v =>
      have hb := bucketOf_fillBuckets lower t.value values []
      have hv : v = contributions lower values t.value := by
        simpa [bucketOf, hget, GoMap.get?] using hb
      refine ⟨(t.value, v), (GoMap.get?_eq_some _ _ _ hn).1 hget, ?_⟩
      cases t
      simp only [token.mk.injEq, true_and]
      rw [hv]
      exact hids.symm

theorem strict_of_sorted_of_nodup (l : tokens) (h1 : l.Sorted tokenLe)
    (h2 : (l.map token.value).Nodup) :
    l.Pairwise (fun x y => strLt x.value y.value = true) := by
  have h3 : l.Pairwise (fun x y => x.value ≠ y.value) := (List.pairwise_map).1 h2
  have h4 : l.Pairwise tokenLe := h1
  refine (h4.and h3).imp ?_
  rintro x y ⟨hle, hne⟩
  cases h : strLt x.value y.value
  · exact absurd (strLt_connex _ _ h hle) hne
  · rfl

/-- The slice returned by `createTokensTable` does not depend on the order in which the
map is iterated nor on the sorting algorithm: every sorted rearrangement of the entries of
the map is the table of the model. -/
theorem createTokensTable_unique (lower : Char → Char) (values : List musicBy) (l : tokens)
    (hp : l.Perm ((fillBuckets lower values []).map (fun kv => token.mk kv.1 kv.2)))
    (hs : l.Sorted tokenLe) : l = createTokensTable lower values := by
  have hp2 : l.Perm (createTokensTable lower values) :=
    hp.trans (createTokensTable_perm lower values).symm
  have hn : (l.map token.value).Nodup :=
    ((hp2.map token.value).nodup_iff).2 (createTokensTable_nodup lower values)
  have s1 := strict_of_sorted_of_nodup l hs hn
  have s2 := strict_of_sorted_of_nodup _ (createTokensTable_sorted lower values)
    (createTokensTable_nodup lower values)
  exact @List.eq_of_perm_of_sorted _ (fun x y : token => strLt x.value y.value = true)
    ⟨fun a b hab hba => by
      have := strLt_asymm _ _ hab
      rw [hba] at this
      exact Bool.noConfusion this⟩ _ _ hp2 s1 s2

/-- Every sorted rearrangement of a list of strings is the list of `sortStrings`. -/
theorem sortStrings_unique (l l2 : List Str) (hp : l2.Perm l) (hs : l2.Sorted StrLe) :
    l2 = sortStrings l :=
  @List.eq_of_perm_of_sorted _ StrLe ⟨StrLe_antisymm⟩ _ _
    (hp.trans (sortStrings_perm l).symm) hs (sortStrings_sorted l)

/-- C6. The table returned by `createTokensTable` is strictly ascending by token value: it
is sorted, and no two tokens share a value. -/
theorem createTokensTable_strictly_ascending (lower : Char → Char) (values : List musicBy) :
    (createTokensTable lower values).Pairwise (fun x y => strLt x.value y.value = true) ∧
    (createTokensTable lower values).Sorted tokenLe ∧
    ((createTokensTable lower values).map token.value).Nodup := by
  have hs := createTokensTable_sorted lower values
  have hn := createTokensTable_nodup lower values
  exact ⟨strict_of_sorted_of_nodup _ hs hn, hs, hn⟩

theorem mem_contributions (lower : Char → Char) (values : List musicBy) (w u : Str) :
    u ∈ contributions lower values w ↔
      ∃ e ∈ values, w ∈ words lower e.Name ∧ e.Url = u := by
  unfold contributions
  rw [List.mem_flatMap]
  constructor
  · rintro ⟨e, he, hu⟩
    rw [List.mem_replicate] at hu
    exact ⟨e, he, List.count_pos_iff.1 (Nat.pos_of_ne_zero hu.1), hu.2.symm⟩
  · rintro ⟨e, he, hw, rfl⟩
    refine ⟨e, he, ?_⟩
    rw [List.mem_replicate]
    exact ⟨Nat.ne_of_gt (List.count_pos_iff.2 hw), rfl⟩

/-- C7. Prefix completeness over a built index: for every entry of the listing, every word
`w` of its normalized name and every non-empty initial segment `p` of `w`, the positions
returned by `searchPosition p` on the built table include the position of the token of
value `w`, and the `ids` of that token contain the url of every entry of the listing whose
normalized name has the word `w`. -/
theorem completeness_of_search (lower : Char → Char) (values : List musicBy) (e : musicBy)
    (w p : Str) (he : e ∈ values) (hw : w ∈ words lower e.Name) (_hp : p ≠ [])
    (hpre : HasPrefix w p = true) :
    ∃ pos ∈ searchPosition (createTokensTable lower values) p, 0 ≤ pos ∧
      ∃ tok, (createTokensTable lower values)[pos.toNat]? = some tok ∧ tok.value = w ∧
        ∀ e2 ∈ values, w ∈ words lower e2.Name → e2.Url ∈ tok.ids := by
  have hmem : token.mk w (contributions lower values w) ∈ createTokensTable lower values :=
    (mem_createTokensTable lower values _).2 ⟨⟨e, he, hw⟩, rfl⟩
  obtain ⟨n, hn⟩ := List.mem_iff_getElem?.1 hmem
  have hpos : (n : Int) ∈ searchPosition (createTokensTable lower values) p :=
    (searchPosition_mem _ p (createTokensTable_sorted lower values) n).2 ⟨_, hn, hpre⟩
  refine ⟨(n : Int), hpos, by omega, _, by simpa using hn, rfl, ?_⟩
  intro e2 he2 hw2
  exact (mem_contributions lower values w e2.Url).2 ⟨e2, he2, hw2, rfl⟩

/-! ## Order of the terms -/

theorem Split_ne_nil : ∀ s : Str, Split s ≠ []
  | [] => by simp [Split]
  | c :: cs => by
    rw [Split]
    split
    · exact List.cons_ne_nil _ _
    · split <;> exact List.cons_ne_nil _ _

theorem Split_append_space : ∀ a b : Str, Split (a ++ ' ' :: b) = Split a ++ Split b
  | [], b => by simp [Split]
  | c :: a, b => by
    have ih := Split_append_space a b
    rw [List.cons_append, Split, Split, ih]
    by_cases hc : c = ' '
    · simp [hc]
    · simp only [hc, ↓reduceIte]
      cases hs : Split a with
      | nil => exact absurd hs (Split_ne_nil a)
      | cons w ws => rfl

/-- C8. On a sorted table, the queries `t1 ++ " " ++ t2` and `t2 ++ " " ++ t1` return the
same set of identifiers; so do "gold jean" and "jean gold" on the index of the scenario. -/
theorem searchSome_comm :
    (∀ (tks : tokens) (dico : GoMap Str) (t1 t2 : Str), tks.Sorted tokenLe →
      ∀ x, x ∈ (searchSome (t1 ++ " ".toList ++ t2) tks dico).map Music.Id ↔
        x ∈ (searchSome (t2 ++ " ".toList ++ t1) tks dico).map Music.Id) ∧
    (searchSome "gold jean".toList scenarioTable scenarioDico).map
        Music.Id =
      (searchSome "jean gold".toList scenarioTable scenarioDico).map
        Music.Id := by
  constructor
  · intro tks dico t1 t2 hs x
    have e1 : t1 ++ " ".toList ++ t2 = t1 ++ ' ' :: t2 := by simp
    have e2 : t2 ++ " ".toList ++ t1 = t2 ++ ' ' :: t1 := by simp
    rw [searchSome_mem _ tks dico hs, searchSome_mem _ tks dico hs, e1, e2,
      Split_append_space, Split_append_space]
    simp only [List.mem_append]
    constructor
    · intro h t ht
      exact h t ht.symm
    · intro h t ht
      exact h t ht.symm
  · have h1 : Split "gold jean".toList = ["gold".toList, "jean".toList] := by decide
    have h2 : Split "jean gold".toList = ["jean".toList, "gold".toList] := by decide
    rw [searchSome, searchSome, h1, h2]
    simp only [searchLoop, searchPosition, searchIn_eval]
    decide

/-- C9 (the code at the failing input). The query is looked up as typed: on the index of
the scenario, whose tokens are lowercase, "Jean" finds nothing while its lowercase form
"jean" finds a1 and a2. -/
theorem searchSome_Jean :
    searchSome "Jean".toList scenarioTable scenarioDico = [] ∧
    (searchSome (ToLower Char.toLower "Jean".toList) scenarioTable
      scenarioDico).map Music.Id = ["a1".toList, "a2".toList] := by
  have h1 : Split "Jean".toList = ["Jean".toList] := by decide
  have h2 : Split (ToLower Char.toLower "Jean".toList) = ["jean".toList] := by decide
  rw [searchSome, searchSome, h1, h2]
  simp only [searchLoop, searchPosition, searchIn_eval]
  decide

/-! ## Repeated identifiers -/

theorem intersectInner_hit_cons (x : Str) : ∀ b : List Str, (intersectInner x b).1 = true →
    (x :: (intersectInner x b).2) <:+ b
  | [], h => by simp [intersectInner] at h
  | y :: b, h => by
    rw [intersectInner] at h ⊢
    split at h
    · simp at h
    · rename_i hxy
      split at h
      · rename_i hyx
        simp only [hxy, hyx, ↓reduceIte]
        exact (intersectInner_hit_cons x b h).trans (List.suffix_cons y b)
      · rename_i hyx
        have hxe : x = y := strLt_connex x y (by simpa using hxy) (by simpa using hyx)
        subst hxe
        simp only [strLt_irrefl, Bool.false_eq_true, ↓reduceIte]
        exact List.suffix_refl _

theorem intersectOuter_sublist_right : ∀ a b : List Str, (intersectOuter a b).Sublist b
  | [], _ => by simp [intersectOuter]
  | x :: a, b => by
    rw [intersectOuter]
    have hrest : (if (intersectInner x b).2.length = 0 then []
        else intersectOuter a (intersectInner x b).2).Sublist (intersectInner x b).2 := by
      split
      · exact List.nil_sublist _
      · exact intersectOuter_sublist_right a _
    split
    · rename_i h1
      exact (hrest.cons₂ x).trans (intersectInner_hit_cons x b h1).sublist
    · exact hrest.trans (intersectInner_suffix x b).sublist

theorem intersect_nodup (a b : List Str) (h : a.Nodup ∨ b.Nodup) : (intersect a b).Nodup := by
  unfold intersect
  split
  · exact List.nodup_nil
  · rcases h with h | h
    · exact ((sortStrings_perm a).nodup_iff.2 h).sublist (intersectOuter_sublist _ _)
    · exact ((sortStrings_perm b).nodup_iff.2 h).sublist (intersectOuter_sublist_right _ _)

/-- The loop of `searchSome` after its first term returns no identifier twice as soon as
`results` has none twice, or one of the remaining terms collects none twice. -/
theorem searchLoop_nodup (tks : tokens) (dico : GoMap Str) :
    ∀ (terms : List Str) (idx : Nat) (results : List Str), idx ≠ 0 →
      (results.Nodup ∨ ∃ t ∈ terms, (collectIds tks (searchPosition tks t)).Nodup) →
      ((searchLoop tks dico terms idx results).map Music.Id).Nodup
  | [], idx, results, _, h => by
    rw [searchLoop_base]
    rcases h with h | ⟨t, ht, _⟩
    · exact h
    · simp at ht
  | t :: terms, idx, results, hidx, h => by
    rw [searchLoop]
    simp only [hidx, ↓reduceIte]
    split
    · exact List.nodup_nil
    · split
      · exact List.nodup_nil
      · apply searchLoop_nodup tks dico terms (idx + 1) _ (Nat.succ_ne_zero _)
        rcases h with h | ⟨t2, ht2, h2⟩
        · exact Or.inl (intersect_nodup _ _ (Or.inl h))
        · rcases List.mem_cons.1 ht2 with rfl | ht2
          · exact Or.inl (intersect_nodup _ _ (Or.inr h2))
          · exact Or.inr ⟨t2, ht2, h2⟩

theorem searchSome_nodup_of_term (text : Str) (tks : tokens) (dico : GoMap Str)
    (h : ∃ t ∈ Split text, (collectIds tks (searchPosition tks t)).Nodup) :
    ((searchSome text tks dico).map Music.Id).Nodup := by
  unfold searchSome
  cases hsp : Split text with
  | nil => exact absurd hsp (Split_ne_nil text)
  | cons t terms =>
    rw [hsp] at h
    rw [searchLoop]
    simp only [↓reduceIte]
    split
    · exact List.nodup_nil
    · apply searchLoop_nodup tks dico terms 1 _ (by decide)
      obtain ⟨t2, ht2, h2⟩ := h
      rcases List.mem_cons.1 ht2 with rfl | ht2
      · exact Or.inl h2
      · exact Or.inr ⟨t2, ht2, h2⟩

theorem collectIds_nodup (tks : tokens) : ∀ ps : List Int, ps.Nodup →
    (∀ p ∈ ps, (idsAt tks p).Nodup) →
    (∀ p ∈ ps, ∀ q ∈ ps, p ≠ q → ∀ x, x ∈ idsAt tks p → x ∈ idsAt tks q → False) →
    (collectIds tks ps).Nodup
  | [], _, _, _ => by simp [collectIds]
  | p :: ps, hn, h1, h2 => by
    rw [List.nodup_cons] at hn
    rw [collectIds, List.nodup_append]
    refine ⟨h1 p (List.mem_cons_self _ _), ?_, ?_⟩
    · exact collectIds_nodup tks ps hn.2
        (fun q hq => h1 q (List.mem_cons_of_mem _ hq))
        (fun q hq r hr => h2 q (List.mem_cons_of_mem _ hq) r (List.mem_cons_of_mem _ hr))
    · intro x hx hx2
      obtain ⟨q, hq, hxq⟩ := (collectIds_mem tks x ps).1 hx2
      have hne : p ≠ q := by
        rintro rfl
        exact hn.1 hq
      exact h2 p (List.mem_cons_self _ _) q (List.mem_cons_of_mem _ hq) hne x hx hxq

theorem count_le_length_filter (w : Str) (f : Str → Bool) (hf : f w = true) :
    ∀ l : List Str, l.count w ≤ (l.filter f).length
  | [] => by simp
  | a :: l => by
    have ih := count_le_length_filter w f hf l
    by_cases h : a = w
    · subst h
      simp only [List.count_cons_self, List.filter_cons, hf, ↓reduceIte, List.length_cons]
      omega
    · have hne : (a == w) = false := by simpa using h
      rw [List.count_cons, hne, List.filter_cons]
      simp only [Bool.false_eq_true, ↓reduceIte, Nat.add_zero]
      split
      · rw [List.length_cons]
        omega
      · exact ih

theorem eq_of_length_le_one {α : Type} : ∀ (l : List α) (a b : α), l.length ≤ 1 →
    a ∈ l → b ∈ l → a = b
  | [], _, _, _, ha, _ => by cases ha
  | [x], a, b, _, ha, hb => by
    rw [List.mem_singleton] at ha hb
    rw [ha, hb]
  | _ :: _ :: _, _, _, h, _, _ => by
    simp at h

theorem contributions_nodup (lower : Char → Char) (w : Str) : ∀ values : List musicBy,
    (values.map musicBy.Url).Nodup → (∀ e ∈ values, (words lower e.Name).count w ≤ 1) →
    (contributions lower values w).Nodup
  | [], _, _ => by simp [contributions]
  | e :: values, hu, hc => by
    rw [List.map_cons, List.nodup_cons] at hu
    have ih := contributions_nodup lower w values hu.2
      (fun e2 he2 => hc e2 (List.mem_cons_of_mem _ he2))
    have hcons : contributions lower (e :: values) w
        = List.replicate ((words lower e.Name).count w) e.Url ++ contributions lower values w := by
      simp [contributions, List.flatMap_cons]
    rw [hcons, List.nodup_append]
    refine ⟨?_, ih, ?_⟩
    · rw [List.nodup_replicate]
      exact hc e (List.mem_cons_self _ _)
    · intro x hx hx2
      rw [List.mem_replicate] at hx
      obtain ⟨e2, he2, _, hurl⟩ := (mem_contributions lower values w x).1 hx2
      apply hu.1
      rw [← hx.2, ← hurl]
      exact List.mem_map.2 ⟨e2, he2, rfl⟩

theorem getElem?_value_inj (tks : tokens) (hn : (tks.map token.value).Nodup) (i j : Nat)
    (a b : token) (ha : tks[i]? = some a) (hb : tks[j]? = some b) (hv : a.value = b.value) :
    i = j := by
  have hi : i < (tks.map token.value).length := by
    rw [List.length_map]
    by_contra hge
    rw [List.getElem?_eq_none (not_lt.1 hge)] at ha
    exact Option.noConfusion ha
  have hj : j < (tks.map token.value).length := by
    rw [List.length_map]
    by_contra hge
    rw [List.getElem?_eq_none (not_lt.1 hge)] at hb
    exact Option.noConfusion hb
  have ea : (tks.map token.value)[i] = a.value := by
    have : (tks.map token.value)[i]? = some a.value := by rw [List.getElem?_map, ha]; rfl
    rw [List.getElem?_eq_getElem hi] at this
    exact Option.some.inj this
  have eb : (tks.map token.value)[j] = b.value := by
    have : (tks.map token.value)[j]? = some b.value := by rw [List.getElem?_map, hb]; rfl
    rw [List.getElem?_eq_getElem hj] at this
    exact Option.some.inj this
  exact (List.Nodup.getElem_inj_iff hn).1 (by rw [ea, eb, hv])

/-- On a built index, the identifiers collected for a term hold no identifier twice when
the urls of the listing are pairwise different and no name has two word occurrences that
start with the term. -/
theorem collectIds_nodup_of_listing (lower : Char → Char) (values : List musicBy) (t : Str)
    (hu : (values.map musicBy.Url).Nodup)
    (ht : ∀ e ∈ values, ((words lower e.Name).filter (fun w => HasPrefix w t)).length ≤ 1) :
    (collectIds (createTokensTable lower values)
      (searchPosition (createTokensTable lower values) t)).Nodup := by
  have hpos : ∀ p ∈ searchPosition (createTokensTable lower values) t,
      ∃ n : Nat, p = n ∧ ∃ tok, (createTokensTable lower values)[n]? = some tok ∧
        HasPrefix tok.value t = true ∧
        idsAt (createTokensTable lower values) p = contributions lower values tok.value := by
    intro p hp
    obtain ⟨n, rfl, tok, htok, hpre⟩ := searchPosition_range _ t p hp
    refine ⟨n, rfl, tok, htok, hpre, ?_⟩
    have := ((mem_createTokensTable lower values tok).1 (List.getElem?_mem htok)).2
    simpa [idsAt, htok] using this
  apply collectIds_nodup _ _ (searchPosition_nodup _ t)
  · intro p hp
    obtain ⟨n, rfl, tok, _, hpre, hids⟩ := hpos p hp
    rw [hids]
    apply contributions_nodup lower tok.value values hu
    intro e he
    exact le_trans (count_le_length_filter tok.value (fun w => HasPrefix w t) hpre _) (ht e he)
  · intro p hp q hq hne x hxp hxq
    obtain ⟨n, rfl, tok, htok, hpre, hids⟩ := hpos p hp
    obtain ⟨m, rfl, tok2, htok2, hpre2, hids2⟩ := hpos q hq
    rw [hids] at hxp
    rw [hids2] at hxq
    obtain ⟨e, he, hw, hurl⟩ := (mem_contributions lower values _ x).1 hxp
    obtain ⟨e2, he2, hw2, hurl2⟩ := (mem_contributions lower values _ x).1 hxq
    have hee : e = e2 := List.inj_on_of_nodup_map hu he he2 (by rw [hurl, hurl2])
    subst hee
    have hv : tok.value = tok2.value :=
      eq_of_length_le_one _ _ _ (ht e he)
        (List.mem_filter.2 ⟨hw, hpre⟩) (List.mem_filter.2 ⟨hw2, hpre2⟩)
    have hnm : n = m :=
      getElem?_value_inj _ (createTokensTable_nodup lower values) n m tok tok2 htok htok2 hv
    apply hne
    rw [hnm]

/-- C10 (counterexample). The listings with the single artist "Duran Duran", and with the
single artist "Gold Golden", have pairwise different urls, and the queries "duran" and
"gol" return the identifier of the artist twice. -/
theorem searchSome_repeats_identifier :
    (duranListing.map musicBy.Url).Nodup ∧ (goldListing.map musicBy.Url).Nodup ∧
    (searchSome "duran".toList
      (createTokensTable Char.toLower duranListing)
      (createDico duranListing)).map Music.Id
        = ["d1".toList, "d1".toList] ∧
    ¬ ((searchSome "duran".toList
      (createTokensTable Char.toLower duranListing)
      (createDico duranListing)).map Music.Id).Nodup ∧
    (searchSome "gol".toList
      (createTokensTable Char.toLower goldListing)
      (createDico goldListing)).map Music.Id
        = ["g1".toList, "g1".toList] := by
  have h1 : Split "duran".toList = ["duran".toList] := by decide
  have h2 : Split "gol".toList = ["gol".toList] := by decide
  rw [searchSome, searchSome, h1, h2]
  simp only [searchLoop, searchPosition, searchIn_eval]
  decide

/-! ## Instances of the theorems on the scenario -/

theorem searchPosition_correct_witness :
    scenarioTable.Sorted tokenLe ∧ "gol".toList ≠ [] ∧
    (searchPosition scenarioTable "gol".toList).Nodup ∧
    (((1 : Nat) : Int) ∈ searchPosition scenarioTable "gol".toList ↔
      ∃ t, scenarioTable[1]? = some t ∧ HasPrefix t.value "gol".toList = true) :=
  ⟨by decide, by decide,
    (searchPosition_correct scenarioTable "gol".toList (by decide) (by decide)).1,
    (searchPosition_correct scenarioTable "gol".toList
      (by decide) (by decide)).2.2.1 1⟩

theorem intersect_correct_witness :
    (intersect ["a1".toList, "a2".toList] ["a2".toList, "a3".toList]).Sorted StrLe ∧
    (intersect ["a1".toList, "a2".toList] ["a2".toList, "a3".toList]).Nodup ∧
    ("a2".toList ∈ intersect ["a1".toList, "a2".toList] ["a2".toList, "a3".toList] ↔
      "a2".toList ∈ ["a1".toList, "a2".toList] ∧ "a2".toList ∈ ["a2".toList, "a3".toList]) :=
  have h := intersect_correct ["a1".toList, "a2".toList] ["a2".toList, "a3".toList]
    (by decide) (by decide) (by decide) (by decide)
  ⟨h.1, h.2.1, h.2.2 "a2".toList⟩

theorem searchSome_correct_witness :
    scenarioTable.Sorted tokenLe ∧
    "a2".toList ∈ (searchSome "je go".toList scenarioTable
      scenarioDico).map Music.Id :=
  ⟨by decide,
    (searchSome_correct.1 "je go".toList scenarioTable scenarioDico
      (by decide) "a2".toList).2 (by decide)⟩

theorem GetPlaylist_order_witness :
    (∃ out, GetPlaylist ([7, 3, 9], none) (fun _ => ([track9, track7, track3], none))
        = (out, none) ∧ out.length = 3) ∧
    GetPlaylist ([7, 3, 9], none) (fun _ => ([track9, track7, track3], none))
      = ([track7, track3, track9], none) :=
  ⟨(GetPlaylist_order.1 [7, 3, 9] [track9, track7, track3]
      (fun _ => ([track9, track7, track3], none)) rfl (by decide)).imp
      (fun _ h => ⟨h.1, h.2.1⟩),
    GetPlaylist_order.2 track7 track3 track9 [track9, track7, track3] rfl rfl rfl
      (by decide)⟩

theorem HybridSearch_routes_witness :
    scenarioServer.HybridSearch echoSearch ":artist jean gold".toList
      = ([⟨"Jean Gold".toList, "Jean Gold".toList, [], "a2".toList, []⟩], ArtistKind) ∧
    scenarioServer.HybridSearch echoSearch ":album gold".toList
      = ([⟨"Gold Rush".toList, "Gold Rush".toList, [], "b1".toList, []⟩], AlbumKind) ∧
    scenarioServer.HybridSearch echoSearch ":artiste gold".toList
      = ([⟨[], [], ":artiste gold".toList, "s1".toList, []⟩], SongKind) := by
  have h1 : Split "jean gold".toList = ["jean".toList, "gold".toList] := by decide
  have h2 : Split "gold".toList = ["gold".toList] := by decide
  rw [(HybridSearch_routes scenarioServer echoSearch).1 ":artist jean gold".toList
      "jean gold".toList (by decide),
    (HybridSearch_routes scenarioServer echoSearch).2.1 ":album gold".toList
      "gold".toList (by decide),
    (HybridSearch_routes scenarioServer echoSearch).2.2.1 ":artiste gold".toList
      (by decide) (by decide)]
  rw [searchSome, searchSome, h1, h2]
  simp only [searchLoop, searchPosition, searchIn_eval]
  decide

theorem completeness_of_search_witness :
    ∃ pos ∈ searchPosition scenarioTable "go".toList, 0 ≤ pos ∧
      ∃ tok, scenarioTable[pos.toNat]? = some tok ∧ tok.value = "gold".toList ∧
        ∀ e2 ∈ scenario, "gold".toList ∈ words Char.toLower e2.Name → e2.Url ∈ tok.ids :=
  completeness_of_search Char.toLower scenario ⟨"Jean Gold".toList, "a2".toList⟩
    "gold".toList "go".toList
    (by decide) (by decide) (by decide) (by decide)

theorem searchSome_comm_witness :
    "a2".toList ∈ (searchSome ("gold".toList ++ " ".toList ++ "jean".toList)
        scenarioTable scenarioDico).map Music.Id ↔
      "a2".toList ∈ (searchSome ("jean".toList ++ " ".toList ++ "gold".toList)
        scenarioTable scenarioDico).map Music.Id :=
  searchSome_comm.1 scenarioTable scenarioDico "gold".toList
    "jean".toList (by decide) "a2".toList

/-! ## Token values -/

theorem Split_no_space : ∀ (s w : Str), w ∈ Split s → ' ' ∉ w
  | [], w, h => by
    simp only [Split, List.mem_singleton] at h
    rw [h]
    exact List.not_mem_nil _
  | c :: cs, w, h => by
    rw [Split] at h
    by_cases hc : c = ' '
    · simp only [hc, ↓reduceIte, List.mem_cons] at h
      rcases h with h | h
      · rw [h]
        exact List.not_mem_nil _
      · exact Split_no_space cs w h
    · simp only [hc, ↓reduceIte] at h
      cases hs : Split cs with
      | nil => exact absurd hs (Split_ne_nil cs)
      | cons v vs =>
        rw [hs] at h
        simp only [List.mem_cons] at h
        have hv : ' ' ∉ v := Split_no_space cs v (by rw [hs]; exact List.mem_cons_self _ _)
        rcases h with h | h
        · rw [h]
          intro hm
          rcases List.mem_cons.1 hm with e | e
          · exact hc e.symm
          · exact hv e
        · exact Split_no_space cs w (by rw [hs]; exact List.mem_cons_of_mem _ h)

theorem Split_subset : ∀ (s w : Str), w ∈ Split s → ∀ c ∈ w, c ∈ s
  | [], w, h, c, hcw => by
    simp only [Split, List.mem_singleton] at h
    rw [h] at hcw
    exact absurd hcw (List.not_mem_nil _)
  | d :: cs, w, h, c, hcw => by
    rw [Split] at h
    by_cases hd : d = ' '
    · simp only [hd, ↓reduceIte, List.mem_cons] at h
      rcases h with h | h
      · rw [h] at hcw
        exact absurd hcw (List.not_mem_nil _)
      · exact List.mem_cons_of_mem _ (Split_subset cs w h c hcw)
    · simp only [hd, ↓reduceIte] at h
      cases hs : Split cs with
      | nil => exact absurd hs (Split_ne_nil cs)
      | cons v vs =>
        rw [hs] at h
        simp only [List.mem_cons] at h
        rcases h with h | h
        · rw [h] at hcw
          rcases List.mem_cons.1 hcw with e | e
          · rw [e]
            exact List.mem_cons_self _ _
          · exact List.mem_cons_of_mem _
              (Split_subset cs v (by rw [hs]; exact List.mem_cons_self _ _) c e)
        · exact List.mem_cons_of_mem _
            (Split_subset cs w (by rw [hs]; exact List.mem_cons_of_mem _ h) c hcw)

/-- Where space is the only whitespace of a string, cutting at whitespace is `Split`. -/
theorem splitWhitespace_eq_Split : ∀ s : Str, (∀ c ∈ s, isSpace c = true → c = ' ') →
    splitWhitespace s = Split s
  | [], _ => rfl
  | c :: cs, h => by
    have ih := splitWhitespace_eq_Split cs (fun d hd => h d (List.mem_cons_of_mem _ hd))
    rw [splitWhitespace, Split, ih]
    by_cases hc : c = ' '
    · subst hc
      have hsp : isSpace ' ' = true := by decide
      simp [hsp]
    · have hns : isSpace c = false := by
        cases hsp : isSpace c
        · rfl
        · exact absurd (h c (List.mem_cons_self _ _) hsp) hc
      simp [hns, hc]

theorem mem_ReplaceAllDash (s : Str) (c : Char) (h : c ∈ ReplaceAllDash s) :
    c ≠ '-' ∧ (c = ' ' ∨ c ∈ s) := by
  unfold ReplaceAllDash at h
  obtain ⟨d, hd, rfl⟩ := List.mem_map.1 h
  by_cases hdash : d = '-'
  · rw [if_pos hdash]
    exact ⟨by decide, Or.inl rfl⟩
  · rw [if_neg hdash]
    exact ⟨hdash, Or.inr hd⟩

theorem mem_values_createTokensTable (lower : Char → Char) (values : List musicBy) (w : Str) :
    w ∈ (createTokensTable lower values).map token.value ↔
      ∃ e ∈ values, w ∈ words lower e.Name := by
  rw [List.mem_map]
  constructor
  · rintro ⟨t, ht, rfl⟩
    exact ((mem_createTokensTable lower values t).1 ht).1
  · rintro hw
    exact ⟨⟨w, contributions lower values w⟩,
      (mem_createTokensTable lower values _).2 ⟨hw, rfl⟩, rfl⟩

theorem toLower_not_upper (c : Char) : (Char.toLower c).isUpper = false := by
  unfold Char.toLower
  simp only
  split
  · rename_i h
    obtain ⟨k, hk, e⟩ : ∃ k, k < 26 ∧ c.toNat + 32 = 97 + k :=
      ⟨c.toNat - 65, by omega, by omega⟩
    rw [e]
    interval_cases k <;> decide
  · rename_i h
    cases hu : c.isUpper
    · rfl
    · exfalso
      apply h
      simp only [Char.isUpper, Bool.and_eq_true, decide_eq_true_eq] at hu
      exact hu

/-- Every rune of a token value is the lowercase image of a rune of the name the value was
cut from. -/
theorem token_rune_image (lower : Char → Char) (values : List musicBy) (w : Str)
    (hw : w ∈ (createTokensTable lower values).map token.value) :
    ∃ e ∈ values, w ∈ Split (ReplaceAllDash (ToLower lower e.Name)) ∧
      ∀ c ∈ w, ∃ d ∈ e.Name, c = lower d := by
  obtain ⟨e, he, hwe⟩ := (mem_values_createTokensTable lower values w).1 hw
  refine ⟨e, he, hwe, ?_⟩
  intro c hc
  rcases (mem_ReplaceAllDash _ _ (Split_subset _ w hwe c hc)).2 with h | h
  · rw [h] at hc
    exact absurd hc (Split_no_space _ w hwe)
  · unfold ToLower at h
    obtain ⟨d, hd, rfl⟩ := List.mem_map.1 h
    exact ⟨d, hd, rfl⟩

/-- C11 (counterexample). A name with two consecutive spaces gives a token whose value is
empty, which is not one of the whitespace-separated words of the normalized name; so does
the empty name; a name with a tab gives a token whose value contains the tab, where the
whitespace-separated words are "a" and "b"; and the name made of the uppercase letter
U+1D400, which has no lowercase form, gives a token whose value is that uppercase letter. -/
theorem createTokensTable_empty_token :
    ([] : Str) ∈ (createTokensTable Char.toLower doubleSpaceListing).map token.value ∧
    ([] : Str) ∉ specWords (ReplaceAllDash (ToLower Char.toLower "Jean  Gold".toList)) ∧
    (createTokensTable Char.toLower emptyNameListing).map token.value = [[]] ∧
    specWords (ReplaceAllDash (ToLower Char.toLower [])) = [] ∧
    (createTokensTable Char.toLower tabListing).map token.value = [['a', '\t', 'b']] ∧
    specWords (ReplaceAllDash (ToLower Char.toLower ['A', '\t', 'B'])) = [['a'], ['b']] ∧
    (createTokensTable Char.toLower boldCapitalListing).map token.value
      = [[boldCapitalA]] := by
  decide

/-- C11 (amended). The token values of `createTokensTable` are exactly the pieces obtained
by cutting every name, lowercased and with '-' replaced by a space, at each single space;
no token value contains a space or a '-'; every rune of a token value is the image by the
lowercase map of a rune of the name it was cut from; with the lowercase map of ASCII, which
is that of `strings.ToLower` on ASCII names, no token value contains a letter from A to
Z; and where the space is the only whitespace of the normalized names, the non-empty token
values are exactly the whitespace-separated words of these names. -/
theorem createTokensTable_values (lower : Char → Char) (values : List musicBy) :
    (∀ w, w ∈ (createTokensTable lower values).map token.value ↔
      ∃ e ∈ values, w ∈ Split (ReplaceAllDash (ToLower lower e.Name))) ∧
    (∀ w ∈ (createTokensTable lower values).map token.value, ' ' ∉ w ∧ '-' ∉ w) ∧
    (∀ w ∈ (createTokensTable lower values).map token.value,
      ∃ e ∈ values, w ∈ Split (ReplaceAllDash (ToLower lower e.Name)) ∧
        ∀ c ∈ w, ∃ d ∈ e.Name, c = lower d) ∧
    (∀ w ∈ (createTokensTable Char.toLower values).map token.value,
      ∀ c ∈ w, c.isUpper = false) ∧
    ((∀ e ∈ values, ∀ c ∈ ReplaceAllDash (ToLower lower e.Name),
        isSpace c = true → c = ' ') →
      ∀ w, w ≠ [] → (w ∈ (createTokensTable lower values).map token.value ↔
        ∃ e ∈ values, w ∈ specWords (ReplaceAllDash (ToLower lower e.Name)))) := by
  have hmem := mem_values_createTokensTable lower values
  refine ⟨hmem, ?_, token_rune_image lower values, ?_, ?_⟩
  · intro w hw
    obtain ⟨e, _, hwe⟩ := (hmem w).1 hw
    refine ⟨Split_no_space _ w hwe, ?_⟩
    intro hdash
    exact (mem_ReplaceAllDash _ _ (Split_subset _ w hwe _ hdash)).1 rfl
  · intro w hw c hc
    obtain ⟨e, _, _, himg⟩ := token_rune_image Char.toLower values w hw
    obtain ⟨d, _, rfl⟩ := himg c hc
    exact toLower_not_upper d
  · intro hsp w hne
    rw [hmem w]
    constructor
    · rintro ⟨e, he, hwe⟩
      refine ⟨e, he, ?_⟩
      unfold specWords
      rw [splitWhitespace_eq_Split _ (hsp e he), List.mem_filter]
      refine ⟨hwe, ?_⟩
      cases w with
      | nil => exact absurd rfl hne
      | cons c cs => rfl
    · rintro ⟨e, he, hwe⟩
      refine ⟨e, he, ?_⟩
      unfold specWords at hwe
      rw [splitWhitespace_eq_Split _ (hsp e he), List.mem_filter] at hwe
      exact hwe.1

theorem createTokensTable_values_witness :
    (∀ e ∈ scenario, ∀ c ∈ ReplaceAllDash (ToLower Char.toLower e.Name),
      isSpace c = true → c = ' ') ∧
    ("gold".toList ∈ scenarioTable.map token.value ↔
      ∃ e ∈ scenario,
        "gold".toList ∈ specWords (ReplaceAllDash (ToLower Char.toLower e.Name))) ∧
    "gold".toList ∈ scenarioTable.map token.value :=
  ⟨by decide,
    (createTokensTable_values Char.toLower scenario).2.2.2.2 (by decide) "gold".toList
      (by decide),
    by decide⟩

/-! ## Failures of the remote calls -/

theorem GetState_of_status (unmarshalIds : Str → Result (List Int)) (status : Nat) (body : Str)
    (readErr : Option Str) (h : status ≠ 200) :
    GetState unmarshalIds (HttpReply.response status body readErr) = ([], none) := by
  simp [GetState, h]

/-- A status other than 200 of the playback call is not reported: `GetPlaylist` goes on
with no identifier and returns what the catalog call for no identifier gives. -/
theorem GetPlaylist_of_playback_status (unmarshalIds : Str → Result (List Int))
    (unmarshalMusics : Str → Result (List Music)) (musicsInfo : List Int → HttpReply)
    (status : Nat) (body : Str) (readErr : Option Str) (musics : List Music)
    (h : status ≠ 200) (hm : GetMusics unmarshalMusics (musicsInfo []) = (musics, none)) :
    GetPlaylist (GetState unmarshalIds (HttpReply.response status body readErr))
      (fun ids => GetMusics unmarshalMusics (musicsInfo ids)) = ([], none) := by
  rw [GetState_of_status _ _ _ _ h]
  simp [GetPlaylist, hm]

/-- A status other than 200 of the catalog call is not reported either: the body is decoded
whatever the status. -/
theorem GetPlaylist_of_catalog_status (unmarshalMusics : Str → Result (List Music))
    (ids : List Int) (status : Nat) (body : Str) (readErr : Option Str) (musics : List Music)
    (hm : unmarshalMusics body = (musics, none)) :
    GetPlaylist (ids, none)
      (fun _ => GetMusics unmarshalMusics (HttpReply.response status body readErr)) =
      (ids.map (fun id => musicAt (getMusicsAsMap musics) (Sprintf_d id)), none) := by
  simp [GetPlaylist, GetMusics, hm]

/-- Transport failures and decode failures of either call do make `GetPlaylist` fail. -/
theorem GetPlaylist_error_of_failure (unmarshalIds : Str → Result (List Int))
    (unmarshalMusics : Str → Result (List Music)) (musicsInfo : List Int → HttpReply) :
    (∀ err, GetPlaylist (GetState unmarshalIds (HttpReply.failure err))
      (fun ids => GetMusics unmarshalMusics (musicsInfo ids)) = ([], some err)) ∧
    (∀ body readErr ids err, unmarshalIds body = (ids, some err) →
      GetPlaylist (GetState unmarshalIds (HttpReply.response 200 body readErr))
        (fun ids => GetMusics unmarshalMusics (musicsInfo ids)) = ([], some err)) ∧
    (∀ ids err, musicsInfo ids = HttpReply.failure err →
      GetPlaylist (ids, none) (fun ids => GetMusics unmarshalMusics (musicsInfo ids))
        = ([], some err)) ∧
    (∀ ids status body readErr musics err,
      musicsInfo ids = HttpReply.response status body readErr →
      unmarshalMusics body = (musics, some err) →
      GetPlaylist (ids, none) (fun ids => GetMusics unmarshalMusics (musicsInfo ids))
        = ([], some err)) := by
  refine ⟨?_, ?_, ?_, ?_⟩
  · intro err
    simp [GetPlaylist, GetState]
  · intro body readErr ids err h
    simp [GetPlaylist, GetState, h]
  · intro ids err h
    simp [GetPlaylist, GetMusics, h]
  · intro ids status body readErr musics err h1 h2
    simp [GetPlaylist, GetMusics, h1, h2]

/-- C12 (the code at the failing inputs). When the playback state call is answered with
status 500 and the catalog call for no identifier with the body `[]`, `GetPlaylist` returns
the empty playlist and no error; when the playback call gives 7, 3, 9 and the catalog call
is answered with status 500 and the body `[]`, it returns three zero tracks and no error. -/
theorem GetPlaylist_status_500 :
    GetPlaylist (GetState unmarshalEmptyArray (HttpReply.response 500 [] none))
      (fun _ => GetMusics unmarshalEmptyArray (HttpReply.response 200 "[]".toList none))
      = ([], none) ∧
    GetPlaylist (GetState (fun _ => ([7, 3, 9], none)) (HttpReply.response 200 [] none))
      (fun _ => GetMusics unmarshalEmptyArray (HttpReply.response 500 "[]".toList none))
      = ([Music.zero, Music.zero, Music.zero], none) := by
  decide

theorem FindPath_of_status (status : Nat) (body : Str) (readErr : Option Str)
    (h : status ≠ 200) : FindPath (HttpReply.response status body readErr) = ([], none) := by
  simp [FindPath, h]

/-- A status other than 200 of the path lookup is not reported: the add call is issued, with
the empty path. -/
theorem Add_of_lookup_status (pathOfMusic : Str → HttpReply)
    (playlistAdd : Str → Str → HttpReply) (m : Music) (status : Nat) (body : Str)
    (readErr : Option Str) (h : status ≠ 200)
    (hr : pathOfMusic m.Id = HttpReply.response status body readErr) :
    MusicWrapper.Add pathOfMusic playlistAdd m =
      (MusicPlayerWrapper.Add (playlistAdd m.Id []), [(m.Id, [])]) := by
  simp [MusicWrapper.Add, hr, FindPath_of_status _ _ _ h]

/-- A transport failure of the path lookup does short-circuit `Add`. -/
theorem Add_of_lookup_failure (pathOfMusic : Str → HttpReply)
    (playlistAdd : Str → Str → HttpReply) (m : Music) (err : Str)
    (hr : pathOfMusic m.Id = HttpReply.failure err) :
    MusicWrapper.Add pathOfMusic playlistAdd m = (some err, []) := by
  simp [MusicWrapper.Add, hr, FindPath]

/-- C13 (the code at the failing input). When the path lookup of track 7 is answered with
status 404, `Add` issues the add call for the track with the empty path and returns no
error. -/
theorem Add_status_404 :
    MusicWrapper.Add (fun _ => HttpReply.response 404 "not found".toList none)
      (fun _ _ => HttpReply.response 200 [] none) track7
      = (none, [("7".toList, [])]) := by
  decide

/-! ## Termination of the binary search -/

theorem searchInFuel_eq (n : Nat) : ∀ (subs : tokens) (text : Str) (pos : Int),
    subs.length < n → searchInFuel n subs text pos = some (searchIn subs text pos) := by
  induction n with
  | zero =>
    intro subs text pos h
    omega
  | succ n ih =>
    intro subs text pos h
    by_cases h0 : subs.length = 0
    · have h0 : subs = [] := List.length_eq_zero.1 h0
      subst h0
      rw [searchIn_nil]; rfl
    · have hc : subs.length / 2 < subs.length := by omega
      rw [searchIn_step subs text pos _ (List.getElem?_eq_getElem hc), searchInFuel]
      simp only [h0, ↓reduceIte, List.getElem?_eq_getElem hc]
      split
      · rfl
      · split
        · rfl
        · rename_i h1
          rw [ih (subs.drop (subs.length / 2)) text _ (by simp; omega),
            ih (subs.take (subs.length / 2)) text _ (by simp; omega)]
          split <;> rfl

/-- C14. `searchIn` terminates on every slice, sorted or not: from length 2 on, `center` is
at least 1 and both `subs[center:]` and `subs[:center]` are strictly shorter than `subs`, so
that `len(subs) + 1` nested calls always reach a `return`; and a non-negative result of
`searchIn(tok, text, 0)` is a valid index of `tok` whose token value starts with `text`. -/
theorem searchIn_terminates :
    (∀ subs : tokens, 2 ≤ subs.length →
      1 ≤ subs.length / 2 ∧ (subs.drop (subs.length / 2)).length < subs.length ∧
        (subs.take (subs.length / 2)).length < subs.length) ∧
    (∀ (subs : tokens) (text : Str) (pos : Int),
      searchInFuel (subs.length + 1) subs text pos = some (searchIn subs text pos)) ∧
    (∀ (tok : tokens) (text : Str), 0 ≤ searchIn tok text 0 →
      ∃ n : Nat, searchIn tok text 0 = n ∧ n < tok.length ∧
        ∃ t, tok[n]? = some t ∧ HasPrefix t.value text = true) := by
  refine ⟨?_, ?_, ?_⟩
  · intro subs h
    rw [List.length_drop, List.length_take]
    omega
  · intro subs text pos
    exact searchInFuel_eq _ subs text pos (Nat.lt_succ_self _)
  · intro tok text h
    rcases searchIn_sound tok.length tok text 0 (le_refl _) with h1 | ⟨k, hk, h1, hm⟩
    · rw [h1] at h
      omega
    · exact ⟨k, by rw [h1]; simp, hk, hm⟩

theorem searchIn_terminates_witness :
    (1 ≤ scenarioTable.length / 2 ∧
      (scenarioTable.drop (scenarioTable.length / 2)).length < scenarioTable.length ∧
      (scenarioTable.take (scenarioTable.length / 2)).length < scenarioTable.length) ∧
    ∃ n : Nat, searchIn scenarioTable "mi".toList 0 = n ∧ n < scenarioTable.length ∧
      ∃ t, scenarioTable[n]? = some t ∧ HasPrefix t.value "mi".toList = true :=
  ⟨searchIn_terminates.1 scenarioTable (by decide),
    searchIn_terminates.2.2 scenarioTable "mi".toList
      (by rw [searchIn_eval]; decide)⟩

/-! ## Multiplicities in `intersect` -/

/-- What the inner loop of `intersect` skips is below `x`; after a miss, what is left is
above `x`. -/
theorem intersectInner_split (x : Str) : ∀ b : List Str, b.Sorted StrLe →
    ∃ pre : List Str,
      b = pre ++ (if (intersectInner x b).1 then [x] else []) ++ (intersectInner x b).2 ∧
      (∀ y ∈ pre, strLt y x = true) ∧
      ((intersectInner x b).1 = false → ∀ y ∈ (intersectInner x b).2, strLt x y = true)
  | [], _ => by
    refine ⟨[], ?_, ?_, ?_⟩
    · simp [intersectInner]
    · intro y hy
      cases hy
    · intro _ y hy
      simp [intersectInner] at hy
  | y :: b, hs => by
    by_cases hxy : strLt x y = true
    · refine ⟨[], ?_, ?_, ?_⟩
      · simp [intersectInner, hxy]
      · intro z hz
        cases hz
      · intro _ z hz
        have hz2 : z ∈ y :: b := by simpa [intersectInner, hxy] using hz
        rcases List.mem_cons.1 hz2 with rfl | hzb
        · exact hxy
        · exact strLt_of_lt_of_le x y z hxy (List.rel_of_sorted_cons hs z hzb)
    · by_cases hyx : strLt y x = true
      · obtain ⟨pre, hb, hpre, hmiss⟩ := intersectInner_split x b hs.of_cons
        have hr : intersectInner x (y :: b) = intersectInner x b := by
          rw [intersectInner]
          simp [hxy, hyx]
        refine ⟨y :: pre, ?_, ?_, ?_⟩
        · rw [hr, List.cons_append, List.cons_append, ← hb]
        · intro z hz
          rcases List.mem_cons.1 hz with rfl | hz
          · exact hyx
          · exact hpre z hz
        · rw [hr]
          exact hmiss
      · have hxe : x = y := strLt_connex x y (by simpa using hxy) (by simpa using hyx)
        subst hxe
        have hr : intersectInner x (x :: b) = (true, b) := by
          rw [intersectInner]
          simp [strLt_irrefl]
        refine ⟨[], ?_, ?_, ?_⟩
        · rw [hr]
          simp
        · intro z hz
          cases hz
        · rw [hr]
          intro h
          exact absurd h (by simp)

theorem count_eq_zero_of_lt (z : Str) (l : List Str) (h : ∀ y ∈ l, strLt y z = true) :
    l.count z = 0 := by
  rw [List.count_eq_zero]
  intro hz
  have := h z hz
  rw [strLt_irrefl] at this
  exact Bool.noConfusion this

theorem count_eq_zero_of_gt (z : Str) (l : List Str) (h : ∀ y ∈ l, strLt z y = true) :
    l.count z = 0 := by
  rw [List.count_eq_zero]
  intro hz
  have := h z hz
  rw [strLt_irrefl] at this
  exact Bool.noConfusion this

/-- On sorted lists the loops of `intersect` keep every string with the least of its two
multiplicities. -/
theorem intersectOuter_count (z : Str) : ∀ a b : List Str, a.Sorted StrLe → b.Sorted StrLe →
    (intersectOuter a b).count z = min (a.count z) (b.count z)
  | [], b, _, _ => by simp [intersectOuter]
  | x :: a, b, ha, hb => by
    obtain ⟨pre, hsplit, hpre, hmiss⟩ := intersectInner_split x b hb
    have hs2 : (intersectInner x b).2.Sorted StrLe :=
      hb.sublist (intersectInner_suffix x b).sublist
    have ih := intersectOuter_count z a (intersectInner x b).2 ha.of_cons hs2
    have hrest : (if (intersectInner x b).2.length = 0 then []
        else intersectOuter a (intersectInner x b).2).count z
          = min (a.count z) ((intersectInner x b).2.count z) := by
      split
      · rename_i h0
        rw [List.length_eq_zero.1 h0]
        simp
      · exact ih
    have hage : ∀ y ∈ a, StrLe x y := fun y hy => List.rel_of_sorted_cons ha y hy
    -- the multiplicity of `z` in `b`, through the split
    have hcb : b.count z = pre.count z
        + (if (intersectInner x b).1 then [x] else []).count z
        + (intersectInner x b).2.count z := by
      conv_lhs => rw [hsplit]
      rw [List.count_append, List.count_append]
    rw [intersectOuter]
    by_cases hzx : z = x
    · subst hzx
      have hp0 : pre.count z = 0 := count_eq_zero_of_lt z pre hpre
      cases h1 : (intersectInner z b).1
      · have hr0 : (intersectInner z b).2.count z = 0 :=
          count_eq_zero_of_gt z _ (hmiss h1)
        simp only [h1, Bool.false_eq_true, ↓reduceIte] at hcb ⊢
        rw [hrest, hcb, hp0, hr0]
        simp
      · simp only [h1, ↓reduceIte] at hcb ⊢
        rw [List.count_cons_self, List.count_cons_self, hrest, hcb, hp0]
        simp only [List.count_cons_self, List.count_nil, Nat.zero_add]
        omega
    · have hne : (x == z) = false := by
        simpa using fun h : x = z => hzx h.symm
      have hx0 : (if (intersectInner x b).1 then [x] else []).count z = 0 := by
        split
        · rw [List.count_cons, hne]
          simp
        · simp
      have hca : (x :: a).count z = a.count z := by
        rw [List.count_cons, hne]
        simp
      have hkey : min (a.count z) (b.count z)
          = min (a.count z) ((intersectInner x b).2.count z) := by
        rw [hcb, hx0]
        by_cases hzp : z ∈ pre
        · have hlt : strLt z x = true := hpre z hzp
          have ha0 : a.count z = 0 := by
            rw [List.count_eq_zero]
            intro hza
            have hle : StrLe x z := hage z hza
            unfold StrLe at hle
            rw [hlt] at hle
            exact Bool.noConfusion hle
          rw [ha0]
          simp
        · rw [List.count_eq_zero.2 hzp]
          simp
      have hres : (if (intersectInner x b).1 = true then
            x :: (if (intersectInner x b).2.length = 0 then []
              else intersectOuter a (intersectInner x b).2)
          else (if (intersectInner x b).2.length = 0 then []
              else intersectOuter a (intersectInner x b).2)).count z
          = min (a.count z) ((intersectInner x b).2.count z) := by
        split
        · rw [List.count_cons, hne, hrest]
          simp
        · exact hrest
      rw [hca, hkey]
      exact hres

/-- Whatever the two lists, `intersect` keeps every string with the least of its two
multiplicities. -/
theorem intersect_count (a b : List Str) (z : Str) :
    (intersect a b).count z = min (a.count z) (b.count z) := by
  unfold intersect
  split
  · rename_i h
    rcases h with h | h
    · rw [List.length_eq_zero.1 h]
      simp
    · rw [List.length_eq_zero.1 h]
      simp
  · have hca : (sortStrings a).count z = a.count z := (sortStrings_perm a).countP_eq _
    have hcb : (sortStrings b).count z = b.count z := (sortStrings_perm b).countP_eq _
    rw [intersectOuter_count z _ _ (sortStrings_sorted a) (sortStrings_sorted b), hca, hcb]

/-! ## Multiplicities in `searchSome` -/

/-- The loop of `searchSome` after its first term returns an identifier with the least of
its multiplicity in `results` and of its multiplicities in what the remaining terms
collect. -/
theorem searchLoop_count (tks : tokens) (dico : GoMap Str) (u : Str) :
    ∀ (terms : List Str) (idx : Nat) (results : List Str), idx ≠ 0 →
      ((searchLoop tks dico terms idx results).map Music.Id).count u ≤ results.count u ∧
      (∀ t ∈ terms, ((searchLoop tks dico terms idx results).map Music.Id).count u ≤
        (collectIds tks (searchPosition tks t)).count u) ∧
      (((searchLoop tks dico terms idx results).map Music.Id).count u = results.count u ∨
        ∃ t ∈ terms, ((searchLoop tks dico terms idx results).map Music.Id).count u =
          (collectIds tks (searchPosition tks t)).count u)
  | [], idx, results, _ => by
    rw [searchLoop_base]
    refine ⟨le_refl _, ?_, Or.inl rfl⟩
    intro t ht
    cases ht
  | t :: terms, idx, results, hidx => by
    rw [searchLoop]
    simp only [hidx, ↓reduceIte]
    split
    · rename_i h0
      have hc0 : (collectIds tks (searchPosition tks t)).count u = 0 := by
        rw [List.length_eq_zero.1 h0]
        simp [collectIds]
      refine ⟨by simp, ?_, Or.inr ⟨t, List.mem_cons_self _ _, by simp [hc0]⟩⟩
      intro t2 _
      simp
    · have hmin := intersect_count results (collectIds tks (searchPosition tks t)) u
      split
      · rename_i h1
        rw [List.length_eq_zero.1 h1] at hmin
        simp only [List.count_nil] at hmin
        refine ⟨by simp, ?_, ?_⟩
        · intro t2 _
          simp
        · simp only [List.map_nil, List.count_nil]
          rcases Nat.le_total (results.count u)
            ((collectIds tks (searchPosition tks t)).count u) with hle | hle
          · left
            rw [Nat.min_eq_left hle] at hmin
            exact hmin
          · right
            rw [Nat.min_eq_right hle] at hmin
            exact ⟨t, List.mem_cons_self _ _, hmin⟩
      · obtain ⟨h1, h2, h3⟩ := searchLoop_count tks dico u terms (idx + 1)
          (intersect results (collectIds tks (searchPosition tks t))) (Nat.succ_ne_zero _)
        rw [hmin] at h1 h3
        refine ⟨le_trans h1 (Nat.min_le_left _ _), ?_, ?_⟩
        · intro t2 ht2
          rcases List.mem_cons.1 ht2 with rfl | ht2
          · exact le_trans h1 (Nat.min_le_right _ _)
          · exact h2 t2 ht2
        · rcases h3 with h3 | ⟨t2, ht2, h3⟩
          · rcases Nat.le_total (results.count u)
              ((collectIds tks (searchPosition tks t)).count u) with hle | hle
            · left
              rw [Nat.min_eq_left hle] at h3
              exact h3
            · right
              rw [Nat.min_eq_right hle] at h3
              exact ⟨t, List.mem_cons_self _ _, h3⟩
          · exact Or.inr ⟨t2, List.mem_cons_of_mem _ ht2, h3⟩

/-- An identifier is returned by `searchSome` with the least of its multiplicities in what
the terms of the query collect. -/
theorem searchSome_count (text : Str) (tks : tokens) (dico : GoMap Str) (u : Str) :
    (∀ t ∈ Split text, ((searchSome text tks dico).map Music.Id).count u ≤
      (collectIds tks (searchPosition tks t)).count u) ∧
    ∃ t ∈ Split text, ((searchSome text tks dico).map Music.Id).count u =
      (collectIds tks (searchPosition tks t)).count u := by
  unfold searchSome
  cases hsp : Split text with
  | nil => exact absurd hsp (Split_ne_nil text)
  | cons t terms =>
    rw [searchLoop]
    simp only [↓reduceIte]
    split
    · rename_i h0
      have hc0 : (collectIds tks (searchPosition tks t)).count u = 0 := by
        rw [List.length_eq_zero.1 h0]
        simp [collectIds]
      refine ⟨?_, t, List.mem_cons_self _ _, by simp [hc0]⟩
      intro t2 _
      simp
    · obtain ⟨h1, h2, h3⟩ := searchLoop_count tks dico u terms 1
        (collectIds tks (searchPosition tks t)) (by decide)
      refine ⟨?_, ?_⟩
      · intro t2 ht2
        rcases List.mem_cons.1 ht2 with rfl | ht2
        · exact h1
        · exact h2 t2 ht2
      · rcases h3 with h3 | ⟨t2, ht2, h3⟩
        · exact ⟨t, List.mem_cons_self _ _, h3⟩
        · exact ⟨t2, List.mem_cons_of_mem _ ht2, h3⟩

/-! ## Multiplicities on a built index -/

theorem count_contributions (lower : Char → Char) (w : Str) (e : musicBy) :
    ∀ values : List musicBy, (values.map musicBy.Url).Nodup → e ∈ values →
      (contributions lower values w).count e.Url = (words lower e.Name).count w
  | [], _, he => by cases he
  | e2 :: values, hu, he => by
    rw [List.map_cons, List.nodup_cons] at hu
    have hcons : contributions lower (e2 :: values) w
        = List.replicate ((words lower e2.Name).count w) e2.Url
          ++ contributions lower values w := by
      simp [contributions, List.flatMap_cons]
    rw [hcons, List.count_append, List.count_replicate]
    by_cases hurl : e2.Url = e.Url
    · have hnot : e.Url ∉ contributions lower values w := by
        intro hm
        obtain ⟨e3, he3, _, h3⟩ := (mem_contributions lower values w e.Url).1 hm
        apply hu.1
        rw [hurl, ← h3]
        exact List.mem_map.2 ⟨e3, he3, rfl⟩
      have hee : e = e2 := by
        rcases List.mem_cons.1 he with h | h
        · exact h
        · exfalso
          apply hu.1
          rw [hurl]
          exact List.mem_map.2 ⟨e, h, rfl⟩
      rw [List.count_eq_zero.2 hnot, hee]
      simp
    · have hmem : e ∈ values := by
        rcases List.mem_cons.1 he with h | h
        · rw [h] at hurl
          exact absurd rfl hurl
        · exact h
      have hne : (e2.Url == e.Url) = false := by simpa using hurl
      rw [hne, count_contributions lower w e values hu.2 hmem]
      simp

/-- Over strings that are pairwise different and all satisfy `f`, and among which are all
the members of `l` that satisfy `f`, the multiplicities in `l` add up to the number of
members of `l` that satisfy `f`. -/
theorem sum_count_eq_length_filter (f : Str → Bool) : ∀ (ws : List Str), ws.Nodup →
    (∀ w ∈ ws, f w = true) → ∀ l : List Str, (∀ a ∈ l, f a = true → a ∈ ws) →
    (ws.map (fun w => l.count w)).sum = (l.filter f).length
  | [], _, _, l, hl => by
    have : l.filter f = [] := by
      rw [List.filter_eq_nil_iff]
      intro a ha hfa
      exact absurd (hl a ha hfa) (List.not_mem_nil _)
    rw [this]
    rfl
  | w :: ws, hn, hall, l, hl => by
    rw [List.nodup_cons] at hn
    -- the members of `l` other than `w`
    have ih := sum_count_eq_length_filter f ws hn.2
      (fun v hv => hall v (List.mem_cons_of_mem _ hv)) (l.filter (fun a => decide (¬ a = w))) (by
        intro a ha hfa
        rw [List.mem_filter] at ha
        rcases List.mem_cons.1 (hl a ha.1 hfa) with h | h
        · exact absurd h (by simpa using ha.2)
        · exact h)
    have hcount : ∀ v ∈ ws, (l.filter (fun a => decide (¬ a = w))).count v = l.count v := by
      intro v hv
      have hvw : v ≠ w := by
        rintro rfl
        exact hn.1 hv
      rw [List.count_filter]
      simpa using hvw
    have hmap : ws.map (fun v => (l.filter (fun a => decide (¬ a = w))).count v)
        = ws.map (fun v => l.count v) :=
      List.map_congr_left hcount
    rw [hmap] at ih
    have hfw : f w = true := hall w (List.mem_cons_self _ _)
    have hlen : ∀ l2 : List Str, (l2.filter f).length
        = l2.count w + ((l2.filter (fun a => decide (¬ a = w))).filter f).length := by
      intro l2
      induction l2 with
      | nil => rfl
      | cons a l2 ih2 =>
        by_cases haw : a = w
        · subst haw
          simp only [List.filter_cons, hfw, ↓reduceIte, List.length_cons,
            List.count_cons_self, not_true_eq_false, decide_False,
            Bool.false_eq_true]
          omega
        · have hne : (a == w) = false := by simpa using haw
          rw [List.count_cons, hne]
          simp only [Bool.false_eq_true, ↓reduceIte, Nat.add_zero, List.filter_cons,
            haw, not_false_eq_true, decide_True]
          split
          · simp only [List.length_cons]
            omega
          · exact ih2
    rw [List.map_cons, List.sum_cons, ih, hlen l]

theorem nodup_iff_count_le_one : ∀ l : List Str, l.Nodup ↔ ∀ a, l.count a ≤ 1
  | [] => by simp
  | x :: l => by
    rw [List.nodup_cons, nodup_iff_count_le_one l]
    constructor
    · rintro ⟨hx, hl⟩ a
      rw [List.count_cons]
      by_cases hxa : x = a
      · subst hxa
        rw [List.count_eq_zero.2 hx]
        simp
      · have hne : (x == a) = false := by simpa using hxa
        rw [hne]
        simpa using hl a
    · intro h
      constructor
      · intro hx
        have h1 := h x
        rw [List.count_cons_self] at h1
        have h2 : 0 < l.count x := List.count_pos_iff.2 hx
        omega
      · intro a
        have h1 := h a
        rw [List.count_cons] at h1
        omega

/-- What `searchPosition` returns on a built index: positions of tokens that start with the
term, whose `ids` are the contributions of the listing to their value. -/
theorem searchPosition_built (lower : Char → Char) (values : List musicBy) (t : Str)
    (p : Int) (hp : p ∈ searchPosition (createTokensTable lower values) t) :
    ∃ n : Nat, p = n ∧ ∃ tok, (createTokensTable lower values)[n]? = some tok ∧
      HasPrefix tok.value t = true ∧
      valueAt (createTokensTable lower values) p = tok.value ∧
      idsAt (createTokensTable lower values) p = contributions lower values tok.value := by
  obtain ⟨n, rfl, tok, htok, hpre⟩ := searchPosition_range _ t p hp
  refine ⟨n, rfl, tok, htok, hpre, ?_, ?_⟩
  · simp [valueAt, htok]
  · have := ((mem_createTokensTable lower values tok).1 (List.getElem?_mem htok)).2
    simpa [idsAt, htok] using this

theorem collectIds_count (lower : Char → Char) (values : List musicBy) (e : musicBy)
    (hu : (values.map musicBy.Url).Nodup) (he : e ∈ values) (tks : tokens) :
    ∀ ps : List Int,
      (∀ p ∈ ps, idsAt tks p = contributions lower values (valueAt tks p)) →
      (collectIds tks ps).count e.Url =
        ((ps.map (valueAt tks)).map (fun w => (words lower e.Name).count w)).sum
  | [], _ => by simp [collectIds]
  | p :: ps, h => by
    rw [collectIds, List.count_append, h p (List.mem_cons_self _ _),
      count_contributions lower _ e values hu he,
      collectIds_count lower values e hu he tks ps
        (fun q hq => h q (List.mem_cons_of_mem _ hq))]
    simp

/-- On a built index with pairwise different urls, a term collects the identifier of an
entry once per word occurrence of its name that starts with the term. -/
theorem collectIds_count_built (lower : Char → Char) (values : List musicBy) (e : musicBy)
    (t : Str) (hu : (values.map musicBy.Url).Nodup) (he : e ∈ values) :
    (collectIds (createTokensTable lower values)
      (searchPosition (createTokensTable lower values) t)).count e.Url
      = occurrences lower e t := by
  have hsorted := createTokensTable_sorted lower values
  rw [collectIds_count lower values e hu he _ _ (by
    intro p hp
    obtain ⟨n, _, tok, _, _, hv, hids⟩ := searchPosition_built lower values t p hp
    rw [hids, hv])]
  unfold occurrences
  apply sum_count_eq_length_filter (fun w => HasPrefix w t)
  · apply List.Nodup.map_on _ (searchPosition_nodup _ t)
    intro p hp q hq hpq
    obtain ⟨n, rfl, tok, htok, _, hv, _⟩ := searchPosition_built lower values t p hp
    obtain ⟨m, rfl, tok2, htok2, _, hv2, _⟩ := searchPosition_built lower values t q hq
    rw [hv, hv2] at hpq
    rw [getElem?_value_inj _ (createTokensTable_nodup lower values) n m tok tok2 htok htok2 hpq]
  · intro w hw
    obtain ⟨p, hp, rfl⟩ := List.mem_map.1 hw
    obtain ⟨n, _, tok, _, hpre, hv, _⟩ := searchPosition_built lower values t p hp
    rw [hv]
    exact hpre
  · intro a ha hpre
    have hmem : token.mk a (contributions lower values a) ∈ createTokensTable lower values :=
      (mem_createTokensTable lower values _).2 ⟨⟨e, he, ha⟩, rfl⟩
    obtain ⟨n, hn⟩ := List.mem_iff_getElem?.1 hmem
    have hpos : (n : Int) ∈ searchPosition (createTokensTable lower values) t :=
      (searchPosition_mem _ t hsorted n).2 ⟨_, hn, hpre⟩
    refine List.mem_map.2 ⟨(n : Int), hpos, ?_⟩
    simp [valueAt, hn]

/-- The identifiers returned over a built index are urls of the listing. -/
theorem searchSome_ids_subset (lower : Char → Char) (values : List musicBy) (text : Str)
    (dico : GoMap Str) (u : Str)
    (h : u ∈ (searchSome text (createTokensTable lower values) dico).map Music.Id) :
    ∃ e ∈ values, e.Url = u := by
  obtain ⟨t, ht, hc⟩ := (searchSome_count text (createTokensTable lower values) dico u).2
  have hpos : 0 < (collectIds (createTokensTable lower values)
      (searchPosition (createTokensTable lower values) t)).count u := by
    rw [← hc]
    exact List.count_pos_iff.2 h
  obtain ⟨p, hp, hup⟩ := (collectIds_mem _ u _).1 (List.count_pos_iff.1 hpos)
  obtain ⟨n, _, tok, _, _, _, hids⟩ := searchPosition_built lower values t p hp
  rw [hids] at hup
  obtain ⟨e, he, _, hurl⟩ := (mem_contributions lower values _ u).1 hup
  exact ⟨e, he, hurl⟩

/-! ## Repeated identifiers, exactly -/

/-- C10 (amended). Over the index built from a listing with pairwise different urls, the
list returned by `searchSome` holds the identifier of an entry as many times as the least,
over the terms of the query, of the number of word occurrences of the name of the entry
that start with the term; so it holds each identifier at most once if and only if every
name of the listing has, for at least one term of the query, at most one word occurrence
that starts with that term. -/
theorem searchSome_nodup (lower : Char → Char) (values : List musicBy) (text : Str)
    (dico : GoMap Str) (hu : (values.map musicBy.Url).Nodup) :
    (∀ e ∈ values,
      (∀ t ∈ Split text,
        ((searchSome text (createTokensTable lower values) dico).map Music.Id).count e.Url ≤
          ((words lower e.Name).filter (fun w => HasPrefix w t)).length) ∧
      ∃ t ∈ Split text,
        ((searchSome text (createTokensTable lower values) dico).map Music.Id).count e.Url =
          ((words lower e.Name).filter (fun w => HasPrefix w t)).length) ∧
    (((searchSome text (createTokensTable lower values) dico).map Music.Id).Nodup ↔
      ∀ e ∈ values, ∃ t ∈ Split text,
        ((words lower e.Name).filter (fun w => HasPrefix w t)).length ≤ 1) := by
  have hcount : ∀ e ∈ values,
      (∀ t ∈ Split text,
        ((searchSome text (createTokensTable lower values) dico).map Music.Id).count e.Url ≤
          ((words lower e.Name).filter (fun w => HasPrefix w t)).length) ∧
      ∃ t ∈ Split text,
        ((searchSome text (createTokensTable lower values) dico).map Music.Id).count e.Url =
          ((words lower e.Name).filter (fun w => HasPrefix w t)).length := by
    intro e he
    obtain ⟨h1, t, ht, h2⟩ :=
      searchSome_count text (createTokensTable lower values) dico e.Url
    constructor
    · intro t2 ht2
      have := h1 t2 ht2
      rw [collectIds_count_built lower values e t2 hu he] at this
      exact this
    · refine ⟨t, ht, ?_⟩
      rw [h2, collectIds_count_built lower values e t hu he]
      rfl
  refine ⟨hcount, ?_⟩
  rw [nodup_iff_count_le_one]
  constructor
  · intro h e he
    obtain ⟨_, t, ht, heq⟩ := hcount e he
    refine ⟨t, ht, ?_⟩
    rw [← heq]
    exact h e.Url
  · intro h u
    by_cases hmem : u ∈ (searchSome text (createTokensTable lower values) dico).map Music.Id
    · obtain ⟨e, he, rfl⟩ := searchSome_ids_subset lower values text dico u hmem
      obtain ⟨t, ht, hle⟩ := h e he
      exact le_trans ((hcount e he).1 t ht) hle
    · rw [List.count_eq_zero.2 hmem]
      exact Nat.zero_le _

theorem searchSome_nodup_witness :
    (crossListing.map musicBy.Url).Nodup ∧
    (¬ ∃ t ∈ Split "a b".toList, ∀ e ∈ crossListing,
      ((words Char.toLower e.Name).filter (fun w => HasPrefix w t)).length ≤ 1) ∧
    ((searchSome "a b".toList (createTokensTable Char.toLower crossListing)
      (createDico crossListing)).map Music.Id).Nodup ∧
    ¬ ((searchSome "a".toList (createTokensTable Char.toLower crossListing)
      (createDico crossListing)).map Music.Id).Nodup :=
  ⟨by decide, by decide,
    (searchSome_nodup Char.toLower crossListing "a b".toList (createDico crossListing)
      (by decide)).2.2 (by decide),
    fun h => absurd
      ((searchSome_nodup Char.toLower crossListing "a".toList (createDico crossListing)
        (by decide)).2.1 h) (by decide)⟩

end MusicPlayer
